import Mathlib

/-!
Shallow embedding of `enigma.py` (angelborroy/enigma-python).

Python strings are modelled as `List Char`; `str.upper` / `str.isalpha` are
modelled by `Char.toUpper` / `Char.isAlpha`, which agree with Python on the
ASCII range the machine operates over.  Python integers are `Int`, with `%`
modelled by `Int.emod` (both give a result in `[0, n)` for positive `n`).
Python sequence indexing (which admits negative indices and raises
`IndexError` out of range) is modelled by `pyIdx` / `pySet` returning
`Option`; `raise ValueError` / `KeyError` paths are modelled by
`Except String`.
-/

/-- Model of `ALPHABET = "ABCDEFGHIJKLMNOPQRSTUVWXYZ"`. -/
def ALPHABET : List Char := "ABCDEFGHIJKLMNOPQRSTUVWXYZ".toList

/-- Model of `ROTOR_WIRINGS`: name to (wiring, turnover notch). -/
def ROTOR_WIRINGS : List (String × String × Char) :=
  [ ("I",   ("EKMFLGDQVZNTOWYHXUSPAIBRCJ", 'Q')),
    ("II",  ("AJDKSIRUXBLHWTMCQGZNPYFVOE", 'E')),
    ("III", ("BDFHJLCPRTXVZNYEIWGAKMUSQO", 'V')),
    ("IV",  ("ESOVPZJAYQUIRHXLNFTGKDCMWB", 'J')),
    ("V",   ("VZBRGITYUPSDNHLXAWMJQOFECK", 'Z')) ]

/-- Model of `REFLECTORS`. -/
def REFLECTORS : List (String × String) :=
  [ ("B", "YRUHQSLDPXNGOKMIEBFZCWVJAT"),
    ("C", "FVPJIAOYEDRZXWGCTKUQSBNMHL") ]

/-- Model of `char_to_idx(c) = ord(c.upper()) - ord('A')`. -/
def char_to_idx (c : Char) : Int :=
  (c.toUpper.toNat : Int) - ('A'.toNat : Int)

/-- Model of Python sequence read `l[i]` (negative indices count from the
end; out of range is `IndexError`, modelled as `none`). -/
def pyIdx (l : List Char) (i : Int) : Option Char :=
  if i < 0 then
    if i + l.length < 0 then none else l.get? (i + l.length).toNat
  else l.get? i.toNat

/-- Model of Python list assignment `l[i] = c` (same index convention). -/
def pySet (l : List Char) (i : Int) (c : Char) : Option (List Char) :=
  if i < 0 then
    if i + l.length < 0 then none else some (l.set (i + l.length).toNat c)
  else if i.toNat < l.length then some (l.set i.toNat c) else none

/-- Model of `idx_to_char(i) = ALPHABET[i % 26]`; the index `(i % 26).toNat`
is always below 26, so the default of `getD` is never taken. -/
def idx_to_char (i : Int) : Char :=
  ALPHABET.getD (i % 26).toNat 'A'

/-- Model of the `Plugboard` object: its 26-entry `wiring` list. -/
structure Plugboard where
  wiring : List Char
deriving DecidableEq, Repr

/-- Model of the loop body of `Plugboard.__init__`: iterate over the pairs,
uppercasing, rejecting self-connections and reuse, and swapping the two
wiring entries.  The `used` set is modelled as a list. -/
def plugboardFold : List (Char × Char) → List Char → List Char → Except String (List Char)
  | [], _, w => .ok w
  | (a0, b0) :: rest, used, w =>
    let a := a0.toUpper
    let b := b0.toUpper
    if a = b then .error "Cannot connect a letter to itself"
    else if used.contains a || used.contains b then .error "Letter already used in plugboard"
    else
      match pySet w (char_to_idx a) b with
      | none => .error "IndexError"
      | some w1 =>
        match pySet w1 (char_to_idx b) a with
        | none => .error "IndexError"
        | some w2 => plugboardFold rest (a :: b :: used) w2

/-- Model of `Plugboard.__init__(pairs)`: identity wiring, then the pair loop. -/
def mkPlugboard (pairs : List (Char × Char)) : Except String Plugboard :=
  match plugboardFold pairs [] ALPHABET with
  | .error e => .error e
  | .ok w => .ok ⟨w⟩

/-- Model of `Plugboard.forward(c) = self.wiring[char_to_idx(c)]`. -/
def Plugboard.forward (pb : Plugboard) (c : Char) : Option Char :=
  pyIdx pb.wiring (char_to_idx c)

/-- Model of the `Rotor` object. -/
structure Rotor where
  name : String
  wiring : List Char
  reverse : List Char
  notch : Char
  position : Int
  ring : Int
deriving DecidableEq, Repr

/-- Loop of `Rotor._invert`: `for i, c in enumerate(wiring): inv[char_to_idx(c)] = ALPHABET[i]`. -/
def invertGo : List Char → Nat → List Char → Option (List Char)
  | [], _, inv => some inv
  | c :: rest, i, inv =>
    match ALPHABET.get? i with
    | none => none
    | some ac =>
      match pySet inv (char_to_idx c) ac with
      | none => none
      | some inv2 => invertGo rest (i + 1) inv2

/-- Model of `Rotor._invert(wiring)`.  The Python placeholder list
`[''] * 26` is modelled with the placeholder character `'?'`, which never
occurs in a wiring; for permutation wirings every slot is overwritten. -/
def invert (w : List Char) : Option (List Char) :=
  invertGo w 0 (List.replicate 26 '?')

/-- Model of `Rotor.__init__(name, position, ring)`; unknown names are a
`KeyError` on `ROTOR_WIRINGS[name]`. -/
def mkRotor (name : String) (position ring : Char) : Except String Rotor :=
  match ROTOR_WIRINGS.lookup name with
  | none => .error "KeyError: unknown rotor"
  | some (w, notch) =>
    match invert w.toList with
    | none => .error "IndexError"
    | some rv => .ok ⟨name, w.toList, rv, notch, char_to_idx position, char_to_idx ring⟩

/-- Model of `Rotor.is_at_notch(): ALPHABET[self.position] == self.notch`. -/
def Rotor.is_at_notch (r : Rotor) : Bool :=
  pyIdx ALPHABET r.position == some r.notch

/-- Model of `Rotor.step(): position = (position + 1) % 26`. -/
def Rotor.step (r : Rotor) : Rotor :=
  { r with position := (r.position + 1) % 26 }

/-- Model of `Rotor._encode(table, signal)` for a given table and offset
`position - ring`. -/
def rotorEncode (tbl : List Char) (off signal : Int) : Option Int :=
  match pyIdx tbl ((signal + off) % 26) with
  | none => none
  | some oc => some ((char_to_idx oc - off) % 26)

/-- Model of `Rotor.forward(signal)`. -/
def Rotor.forward (r : Rotor) (signal : Int) : Option Int :=
  rotorEncode r.wiring (r.position - r.ring) signal

/-- Model of `Rotor.backward(signal)`. -/
def Rotor.backward (r : Rotor) (signal : Int) : Option Int :=
  rotorEncode r.reverse (r.position - r.ring) signal

/-- Model of the `Reflector` object. -/
structure Reflector where
  wiring : List Char
deriving DecidableEq, Repr

/-- Model of `Reflector.__init__(name)`. -/
def mkReflector (name : String) : Except String Reflector :=
  match REFLECTORS.lookup name with
  | none => .error "KeyError: unknown reflector"
  | some w => .ok ⟨w.toList⟩

/-- Model of `Reflector.reflect(signal) = char_to_idx(self.wiring[signal])`. -/
def Reflector.reflect (re : Reflector) (signal : Int) : Option Int :=
  match pyIdx re.wiring signal with
  | none => none
  | some c => some (char_to_idx c)

/-- Model of the `EnigmaMachine` object. -/
structure EnigmaMachine where
  rotors : List Rotor
  plugboard : Plugboard
  reflector : Reflector
deriving DecidableEq, Repr

/-- Model of `EnigmaMachine._step_rotors()`: the unpacking
`left, mid, right = self.rotors` fails unless there are exactly 3 rotors;
then the if/elif double-step logic followed by the unconditional right
step. -/
def stepRotors : List Rotor → Option (List Rotor)
  | [left, mid, right] =>
    if mid.is_at_notch then some [left.step, mid.step, right.step]
    else if right.is_at_notch then some [left, mid.step, right.step]
    else some [left, mid, right.step]
  | _ => none

/-- Forward rotor pass: `for rotor in rs: signal = rotor.forward(signal)`. -/
def passFwd : List Rotor → Int → Option Int
  | [], s => some s
  | rot :: rest, s =>
    match rot.forward s with
    | none => none
    | some t => passFwd rest t

/-- Backward rotor pass: `for rotor in rs: signal = rotor.backward(signal)`. -/
def passBwd : List Rotor → Int → Option Int
  | [], s => some s
  | rot :: rest, s =>
    match rot.backward s with
    | none => none
    | some t => passBwd rest t

/-- Model of `EnigmaMachine._encrypt_char(c)`: step, plugboard in, rotors
right-to-left, reflector, rotors left-to-right, plugboard out.  Returns the
machine with its mutated rotor positions together with the output letter. -/
def EnigmaMachine.encryptChar (m : EnigmaMachine) (c : Char) : Option (EnigmaMachine × Char) :=
  match stepRotors m.rotors with
  | none => none
  | some rs =>
    let m2 : EnigmaMachine := { m with rotors := rs }
    match m2.plugboard.forward c with
    | none => none
    | some pc =>
      match passFwd rs.reverse (char_to_idx pc) with
      | none => none
      | some s1 =>
        match m2.reflector.reflect s1 with
        | none => none
        | some s2 =>
          match passBwd rs s2 with
          | none => none
          | some s3 =>
            match m2.plugboard.forward (idx_to_char s3) with
            | none => none
            | some oc => some (m2, oc)

/-- Loop of `EnigmaMachine.encrypt` over the already-uppercased characters:
alphabetic characters go through `_encrypt_char`, others are appended
unchanged. -/
def encryptChars (m : EnigmaMachine) : List Char → Option (EnigmaMachine × List Char)
  | [] => some (m, [])
  | c :: cs =>
    if c.isAlpha then
      match m.encryptChar c with
      | none => none
      | some (m1, d) =>
        match encryptChars m1 cs with
        | none => none
        | some (m2, ds) => some (m2, d :: ds)
    else
      match encryptChars m cs with
      | none => none
      | some (m2, ds) => some (m2, c :: ds)

/-- Model of `EnigmaMachine.encrypt(text)`: uppercase, then the character loop. -/
def EnigmaMachine.encrypt (m : EnigmaMachine) (text : List Char) :
    Option (EnigmaMachine × List Char) :=
  encryptChars m (text.map Char.toUpper)

/-- Loop of `EnigmaMachine.reset`: `for rotor, pos in zip(self.rotors, positions)`,
truncating at the shorter list. -/
def resetRotors : List Rotor → List Char → List Rotor
  | r :: rs, p :: ps => { r with position := char_to_idx p } :: resetRotors rs ps
  | rs, [] => rs
  | [], _ :: _ => []

/-- Model of `EnigmaMachine.reset(positions)`. -/
def EnigmaMachine.reset (m : EnigmaMachine) (positions : List Char) : EnigmaMachine :=
  { m with rotors := resetRotors m.rotors positions }

/-- Model of Python `zip` over three lists (truncates at the shortest). -/
def zip3 : List String → List Char → List Char → List (String × Char × Char)
  | n :: ns, p :: ps, r :: rs => (n, p, r) :: zip3 ns ps rs
  | _, _, _ => []

/-- The rotor list comprehension of `EnigmaMachine.__init__`: builds each
rotor in order, propagating the first error. -/
def mkRotors : List (String × Char × Char) → Except String (List Rotor)
  | [] => .ok []
  | (n, p, r) :: rest =>
    match mkRotor n p r with
    | .error e => .error e
    | .ok rot =>
      match mkRotors rest with
      | .error e => .error e
      | .ok rots => .ok (rot :: rots)

/-- Model of `EnigmaMachine.__init__`: rotor-count check, rotors from the
zip of names/positions/rings, plugboard (`plugboard or []`), reflector. -/
def mkMachine (rotor_names : List String) (positions ring_settings : List Char)
    (plugboard : Option (List (Char × Char))) (reflector : String) :
    Except String EnigmaMachine :=
  if rotor_names.length ≠ 3 then .error "Exactly 3 rotors are required."
  else
    match mkRotors (zip3 rotor_names positions ring_settings) with
    | .error e => .error e
    | .ok rots =>
      match mkPlugboard (plugboard.getD []) with
      | .error e => .error e
      | .ok pb =>
        match mkReflector reflector with
        | .error e => .error e
        | .ok re => .ok ⟨rots, pb, re⟩

/-- Window letters of the machine, as the demo reads them:
`ALPHABET[rot.position]` for each rotor. -/
def windows (m : EnigmaMachine) : List (Option Char) :=
  m.rotors.map (fun r => pyIdx ALPHABET r.position)

/-! Basic character-level lemmas. -/

/-- The j-th letter of the alphabet (defaulting outside 0..25). -/
def ALPH (j : Nat) : Char := ALPHABET.getD j 'A'

theorem chr_toNat_inj {a b : Char} (h : a.toNat = b.toNat) : a = b := by
  apply Char.ext
  exact UInt32.toNat.inj h

theorem chr_toNat_ofNat (n : Nat) (h : n < 55296) : (Char.ofNat n).toNat = n := by
  have hv : n.isValidChar := Or.inl h
  rw [Char.ofNat, dif_pos hv]
  rfl

theorem toUpper_eq (c : Char) :
    c.toUpper = if c.toNat ≥ 97 ∧ c.toNat ≤ 122 then Char.ofNat (c.toNat - 32) else c := rfl

theorem upper_idem (c : Char) : c.toUpper.toUpper = c.toUpper := by
  rw [toUpper_eq c]
  by_cases h : c.toNat ≥ 97 ∧ c.toNat ≤ 122
  · rw [if_pos h, toUpper_eq, if_neg]
    rw [chr_toNat_ofNat _ (by omega)]
    omega
  · rw [if_neg h, toUpper_eq, if_neg h]

theorem isUpper_iff (c : Char) : c.isUpper = true ↔ 65 ≤ c.toNat ∧ c.toNat ≤ 90 := by
  simp only [Char.isUpper, Bool.and_eq_true, decide_eq_true_eq, UInt32.le_def, BitVec.le_def]
  exact Iff.rfl

theorem isLower_iff (c : Char) : c.isLower = true ↔ 97 ≤ c.toNat ∧ c.toNat ≤ 122 := by
  simp only [Char.isLower, Bool.and_eq_true, decide_eq_true_eq, UInt32.le_def, BitVec.le_def]
  exact Iff.rfl

/-- A wiring table `w` of 26 letters whose functional inverse is `rv`:
entry j of `w` is the k-th letter exactly when entry k of `rv` is the j-th
letter. -/
def TblInv (w rv : List Char) : Prop :=
  w.length = 26 ∧ rv.length = 26 ∧
  ∀ j : Fin 26, ∃ k : Fin 26,
    w.get? (j : Nat) = some (ALPH k) ∧ rv.get? (k : Nat) = some (ALPH j)

instance (w rv : List Char) : Decidable (TblInv w rv) := by
  unfold TblInv
  infer_instance

/-- A self-inverse 26-letter table (plugboard wiring, reflector wiring). -/
def Invol26 (w : List Char) : Prop := TblInv w w

instance (w : List Char) : Decidable (Invol26 w) := by
  unfold Invol26
  infer_instance

set_option maxHeartbeats 1000000 in
/-- Every catalog rotor wiring inverts successfully, and wiring/inverse are
functional inverses of each other in both directions. -/
theorem catalog_TblInv :
    ∀ p ∈ ROTOR_WIRINGS, ∃ rv, invert p.2.1.toList = some rv ∧
      TblInv p.2.1.toList rv ∧ TblInv rv p.2.1.toList := by decide

set_option maxHeartbeats 1000000 in
/-- Both catalog reflector wirings are self-inverse letter tables. -/
theorem catalog_refl_invol : ∀ p ∈ REFLECTORS, Invol26 p.2.toList := by decide

theorem char_to_idx_ALPH : ∀ k : Fin 26, char_to_idx (ALPH k) = (k : Int) := by decide

theorem ALPH_inj : ∀ j k : Fin 26, ALPH j = ALPH k → j = k := by decide

theorem toUpper_ALPH : ∀ k : Fin 26, (ALPH k).toUpper = ALPH k := by decide

theorem isAlpha_ALPH : ∀ k : Fin 26, (ALPH k).isAlpha = true := by decide

/-! Lemmas about the Python indexing helpers. -/

theorem pyIdx_nonneg (l : List Char) (i : Int) (hi : 0 ≤ i) :
    pyIdx l i = l.get? i.toNat := by
  unfold pyIdx
  rw [if_neg (by omega)]

theorem pySet_nonneg (l : List Char) (i : Int) (c : Char) (hi : 0 ≤ i)
    (h : i.toNat < l.length) : pySet l i c = some (l.set i.toNat c) := by
  unfold pySet
  rw [if_neg (by omega), if_pos h]

theorem pySet_some_length {l l' : List Char} {i : Int} {c : Char}
    (h : pySet l i c = some l') : l'.length = l.length := by
  unfold pySet at h
  split at h
  · split at h
    · exact absurd h (by simp)
    · simp only [Option.some.injEq] at h
      rw [← h, List.length_set]
  · split at h
    · simp only [Option.some.injEq] at h
      rw [← h, List.length_set]
    · exact absurd h (by simp)

theorem idx_to_char_lt (i : Int) (h0 : 0 ≤ i) (h : i < 26) :
    idx_to_char i = ALPH i.toNat := by
  unfold idx_to_char ALPH
  congr 1
  omega

/-! The central substitution lemma: encoding through a table and decoding
through its functional inverse, at any common offset, is the identity on
signals in `[0, 26)`. -/

theorem rotorEncode_inv {w rv : List Char} (h : TblInv w rv) (off : Int) {s : Int}
    (hs0 : 0 ≤ s) (hs : s < 26) :
    ∃ t, rotorEncode w off s = some t ∧ 0 ≤ t ∧ t < 26 ∧ rotorEncode rv off t = some s := by
  obtain ⟨hw, hrv, hinv⟩ := h
  have hin0 : 0 ≤ (s + off) % 26 := Int.emod_nonneg _ (by norm_num)
  have hin1 : (s + off) % 26 < 26 := Int.emod_lt_of_pos _ (by norm_num)
  have hjlt : ((s + off) % 26).toNat < 26 := by omega
  obtain ⟨k, hk1, hk2⟩ := hinv ⟨((s + off) % 26).toNat, hjlt⟩
  refine ⟨((k : Int) - off) % 26, ?_, Int.emod_nonneg _ (by norm_num),
    Int.emod_lt_of_pos _ (by norm_num), ?_⟩
  · unfold rotorEncode
    rw [pyIdx_nonneg _ _ hin0, hk1]
    dsimp only
    rw [char_to_idx_ALPH k]
  · unfold rotorEncode
    have ht0 : 0 ≤ ((k : Int) - off) % 26 := Int.emod_nonneg _ (by norm_num)
    have hsh : (((k : Int) - off) % 26 + off) % 26 = (k : Int) := by
      have hk26 : (k : Int) < 26 := by exact_mod_cast k.isLt
      omega
    rw [hsh, pyIdx_nonneg _ _ (by positivity), Int.toNat_natCast, hk2]
    dsimp only
    rw [char_to_idx_ALPH ⟨((s + off) % 26).toNat, hjlt⟩]
    have h5 : (((s + off) % 26).toNat : Int) = (s + off) % 26 := by omega
    rw [h5]
    have h6 : ((s + off) % 26 - off) % 26 = s := by omega
    rw [h6]

/-! Classification of characters under `toUpper` / `isAlpha`. -/

theorem isAlpha_iff (c : Char) :
    c.isAlpha = true ↔ (65 ≤ c.toNat ∧ c.toNat ≤ 90) ∨ (97 ≤ c.toNat ∧ c.toNat ≤ 122) := by
  rw [Char.isAlpha, Bool.or_eq_true, isUpper_iff, isLower_iff]

theorem toNat_toUpper (c : Char) :
    c.toUpper.toNat = if 97 ≤ c.toNat ∧ c.toNat ≤ 122 then c.toNat - 32 else c.toNat := by
  rw [toUpper_eq]
  by_cases h : c.toNat ≥ 97 ∧ c.toNat ≤ 122
  · rw [if_pos h, if_pos h, chr_toNat_ofNat _ (by omega)]
  · rw [if_neg h, if_neg h]

theorem toUpper_nonalpha {c : Char} (h : c.isAlpha = false) : c.toUpper = c := by
  rw [toUpper_eq, if_neg]
  intro hcon
  have : c.isAlpha = true := (isAlpha_iff c).mpr (Or.inr hcon)
  rw [h] at this
  exact absurd this (by simp)

theorem eq_ALPH_of_upper {c : Char} (h1 : 65 ≤ c.toNat) (h2 : c.toNat ≤ 90) :
    c = ALPH (c.toNat - 65) := by
  have key : ∀ n, n < 91 → 65 ≤ n → (ALPH (n - 65)).toNat = n := by decide
  exact chr_toNat_inj ((key c.toNat (by omega) h1).symm)

theorem alpha_stable_eq_ALPH {c : Char} (ha : c.isAlpha = true) (hs : c.toUpper = c) :
    ∃ j : Fin 26, c = ALPH (j : Nat) := by
  rcases (isAlpha_iff c).mp ha with h | h
  · exact ⟨⟨c.toNat - 65, by omega⟩, eq_ALPH_of_upper h.1 h.2⟩
  · exfalso
    have := congrArg Char.toNat hs
    rw [toNat_toUpper, if_pos h] at this
    omega

theorem mapUpper_stable (xs : List Char) : ∀ c ∈ xs.map Char.toUpper, c.toUpper = c := by
  intro c hc
  obtain ⟨a, _, rfl⟩ := List.mem_map.mp hc
  exact upper_idem a

theorem map_toUpper_of_stable {ys : List Char} (h : ∀ c ∈ ys, c.toUpper = c) :
    ys.map Char.toUpper = ys := by
  induction ys with
  | nil => rfl
  | cons c cs ih =>
    rw [List.map_cons, h c (by simp), ih (fun d hd => h d (by simp [hd]))]

/-! Inverse lemmas for the two rotor passes. -/

theorem passFwd_append (xs ys : List Rotor) (s : Int) :
    passFwd (xs ++ ys) s =
      match passFwd xs s with
      | none => none
      | some t => passFwd ys t := by
  induction xs generalizing s with
  | nil => rfl
  | cons rot rest ih =>
    rw [List.cons_append]
    simp only [passFwd]
    cases rot.forward s with
    | none => rfl
    | some t => exact ih t

theorem passBwd_append (xs ys : List Rotor) (s : Int) :
    passBwd (xs ++ ys) s =
      match passBwd xs s with
      | none => none
      | some t => passBwd ys t := by
  induction xs generalizing s with
  | nil => rfl
  | cons rot rest ih =>
    rw [List.cons_append]
    simp only [passBwd]
    cases rot.backward s with
    | none => rfl
    | some t => exact ih t

theorem passFwd_inv (rs : List Rotor) (hrs : ∀ rot ∈ rs, TblInv rot.wiring rot.reverse) :
    ∀ s : Int, 0 ≤ s → s < 26 →
    ∃ t, passFwd rs s = some t ∧ 0 ≤ t ∧ t < 26 ∧ passBwd rs.reverse t = some s := by
  induction rs with
  | nil =>
    intro s h0 h1
    exact ⟨s, rfl, h0, h1, rfl⟩
  | cons rot rest ih =>
    intro s h0 h1
    obtain ⟨u, hu, hu0, hu1, hub⟩ :=
      rotorEncode_inv (hrs rot (by simp)) (rot.position - rot.ring) h0 h1
    obtain ⟨t, ht, ht0, ht1, htb⟩ := ih (fun r hr => hrs r (by simp [hr])) u hu0 hu1
    refine ⟨t, ?_, ht0, ht1, ?_⟩
    · simp only [passFwd]
      rw [show rot.forward s = some u from hu]
      exact ht
    · rw [List.reverse_cons, passBwd_append, htb]
      simp only [passBwd]
      rw [show rot.backward u = some s from hub]

theorem passBwd_inv (rs : List Rotor) (hrs : ∀ rot ∈ rs, TblInv rot.reverse rot.wiring) :
    ∀ s : Int, 0 ≤ s → s < 26 →
    ∃ t, passBwd rs s = some t ∧ 0 ≤ t ∧ t < 26 ∧ passFwd rs.reverse t = some s := by
  induction rs with
  | nil =>
    intro s h0 h1
    exact ⟨s, rfl, h0, h1, rfl⟩
  | cons rot rest ih =>
    intro s h0 h1
    obtain ⟨u, hu, hu0, hu1, hub⟩ :=
      rotorEncode_inv (hrs rot (by simp)) (rot.position - rot.ring) h0 h1
    obtain ⟨t, ht, ht0, ht1, htb⟩ := ih (fun r hr => hrs r (by simp [hr])) u hu0 hu1
    refine ⟨t, ?_, ht0, ht1, ?_⟩
    · simp only [passBwd]
      rw [show rot.backward s = some u from hu]
      exact ht
    · rw [List.reverse_cons, passFwd_append, htb]
      simp only [passFwd]
      rw [show rot.forward u = some s from hub]

/-! Machine-level invariant and the per-character involution. -/

/-- Two rotors that agree on everything except possibly the position. -/
def posEquiv (r r' : Rotor) : Prop :=
  r'.name = r.name ∧ r'.wiring = r.wiring ∧ r'.reverse = r.reverse ∧
  r'.notch = r.notch ∧ r'.ring = r.ring

theorem posEquiv_step (r : Rotor) : posEquiv r r.step :=
  ⟨rfl, rfl, rfl, rfl, rfl⟩

theorem posEquiv_refl (r : Rotor) : posEquiv r r :=
  ⟨rfl, rfl, rfl, rfl, rfl⟩

theorem posEquiv_trans {a b c : Rotor} (h1 : posEquiv a b) (h2 : posEquiv b c) : posEquiv a c := by
  obtain ⟨e1, e2, e3, e4, e5⟩ := h1
  obtain ⟨f1, f2, f3, f4, f5⟩ := h2
  exact ⟨f1.trans e1, f2.trans e2, f3.trans e3, f4.trans e4, f5.trans e5⟩

/-- Structural well-formedness of a machine: three rotors whose tables are
mutually inverse letter permutations, an involutive plugboard wiring, and an
involutive reflector wiring. -/
def MInv (m : EnigmaMachine) : Prop :=
  m.rotors.length = 3 ∧
  (∀ rot ∈ m.rotors, TblInv rot.wiring rot.reverse ∧ TblInv rot.reverse rot.wiring) ∧
  Invol26 m.plugboard.wiring ∧ Invol26 m.reflector.wiring

theorem stepRotors_three {rs : List Rotor} (h : rs.length = 3) :
    ∃ rs', stepRotors rs = some rs' ∧ rs'.length = 3 ∧ List.Forall₂ posEquiv rs rs' := by
  obtain ⟨a, b, c, rfl⟩ := List.length_eq_three.mp h
  simp only [stepRotors]
  by_cases h1 : b.is_at_notch
  · rw [if_pos h1]
    exact ⟨_, rfl, rfl, .cons (posEquiv_step a) (.cons (posEquiv_step b) (.cons (posEquiv_step c) .nil))⟩
  · rw [if_neg h1]
    by_cases h2 : c.is_at_notch
    · rw [if_pos h2]
      exact ⟨_, rfl, rfl, .cons (posEquiv_refl a) (.cons (posEquiv_step b) (.cons (posEquiv_step c) .nil))⟩
    · rw [if_neg h2]
      exact ⟨_, rfl, rfl, .cons (posEquiv_refl a) (.cons (posEquiv_refl b) (.cons (posEquiv_step c) .nil))⟩

theorem forall2_posEquiv_mem {rs rs' : List Rotor} (h : List.Forall₂ posEquiv rs rs')
    {r' : Rotor} (hr' : r' ∈ rs') : ∃ r ∈ rs, posEquiv r r' := by
  induction h with
  | nil => cases hr'
  | cons hab htail ih =>
    rcases List.mem_cons.mp hr' with rfl | hmem
    · exact ⟨_, by simp, hab⟩
    · obtain ⟨r, hr, he⟩ := ih hmem
      exact ⟨r, by simp [hr], he⟩

theorem tblInv_of_posEquiv {r r' : Rotor}
    (h : TblInv r.wiring r.reverse ∧ TblInv r.reverse r.wiring) (he : posEquiv r r') :
    TblInv r'.wiring r'.reverse ∧ TblInv r'.reverse r'.wiring := by
  obtain ⟨_, e2, e3, _, _⟩ := he
  rw [e2, e3]
  exact h

theorem pb_forward_pair {pb : Plugboard} (h : Invol26 pb.wiring) (j : Fin 26) :
    ∃ k : Fin 26, pb.forward (ALPH (j : Nat)) = some (ALPH (k : Nat)) ∧
      pb.forward (ALPH (k : Nat)) = some (ALPH (j : Nat)) := by
  obtain ⟨hw, _, hinv⟩ := h
  obtain ⟨k, hk1, hk2⟩ := hinv j
  refine ⟨k, ?_, ?_⟩
  · unfold Plugboard.forward
    rw [char_to_idx_ALPH j, pyIdx_nonneg _ _ (by positivity), Int.toNat_natCast, hk1]
  · unfold Plugboard.forward
    rw [char_to_idx_ALPH k, pyIdx_nonneg _ _ (by positivity), Int.toNat_natCast, hk2]

theorem reflect_pair {re : Reflector} (h : Invol26 re.wiring) {s : Int}
    (h0 : 0 ≤ s) (h1 : s < 26) :
    ∃ u : Fin 26, re.reflect s = some ((u : Nat) : Int) ∧
      re.reflect ((u : Nat) : Int) = some s := by
  obtain ⟨hw, _, hinv⟩ := h
  obtain ⟨u, hu1, hu2⟩ := hinv ⟨s.toNat, by omega⟩
  refine ⟨u, ?_, ?_⟩
  · unfold Reflector.reflect
    rw [pyIdx_nonneg _ _ h0, hu1]
    dsimp only
    rw [char_to_idx_ALPH u]
  · unfold Reflector.reflect
    rw [pyIdx_nonneg _ _ (by positivity), Int.toNat_natCast, hu2]
    dsimp only
    rw [char_to_idx_ALPH ⟨s.toNat, by omega⟩]
    show some ((s.toNat : Nat) : Int) = some s
    rw [Int.toNat_of_nonneg h0]

theorem encryptChar_invol {m : EnigmaMachine} (hm : MInv m) (j : Fin 26) :
    ∃ (rs' : List Rotor) (k : Fin 26), stepRotors m.rotors = some rs' ∧
      m.encryptChar (ALPH (j : Nat)) = some ({ m with rotors := rs' }, ALPH (k : Nat)) ∧
      m.encryptChar (ALPH (k : Nat)) = some ({ m with rotors := rs' }, ALPH (j : Nat)) := by
  obtain ⟨h3, hrot, hpb, hrefl⟩ := hm
  obtain ⟨rs', hstep, hlen', hpe⟩ := stepRotors_three h3
  have hrot' : ∀ rot ∈ rs', TblInv rot.wiring rot.reverse ∧ TblInv rot.reverse rot.wiring := by
    intro rot hr
    obtain ⟨r0, hr0, he⟩ := forall2_posEquiv_mem hpe hr
    exact tblInv_of_posEquiv (hrot r0 hr0) he
  -- plugboard in
  obtain ⟨k1, hk1f, hk1b⟩ := pb_forward_pair hpb j
  -- forward pass on the reversed rotor list
  have hfwdtbl : ∀ rot ∈ rs'.reverse, TblInv rot.wiring rot.reverse := by
    intro rot hr
    exact (hrot' rot (List.mem_reverse.mp hr)).1
  obtain ⟨t, htf, ht0, ht1, htb⟩ := passFwd_inv rs'.reverse hfwdtbl (char_to_idx (ALPH (k1 : Nat)))
    (by rw [char_to_idx_ALPH k1]; positivity) (by rw [char_to_idx_ALPH k1]; exact_mod_cast k1.isLt)
  rw [List.reverse_reverse] at htb
  -- reflector
  obtain ⟨u, huf, hub⟩ := reflect_pair hrefl ht0 ht1
  -- backward pass
  have hbwdtbl : ∀ rot ∈ rs', TblInv rot.reverse rot.wiring := by
    intro rot hr
    exact (hrot' rot hr).2
  obtain ⟨v, hvb, hv0, hv1, hvf⟩ := passBwd_inv rs' hbwdtbl ((u : Nat) : Int) (by positivity)
    (by exact_mod_cast u.isLt)
  -- plugboard out
  have hvchar : idx_to_char v = ALPH v.toNat := idx_to_char_lt v hv0 hv1
  obtain ⟨k2, hk2f, hk2b⟩ := pb_forward_pair hpb ⟨v.toNat, by omega⟩
  refine ⟨rs', k2, hstep, ?_, ?_⟩
  · unfold EnigmaMachine.encryptChar
    rw [hstep]
    dsimp only
    rw [hk1f]
    dsimp only
    rw [htf]
    dsimp only
    rw [huf]
    dsimp only
    rw [hvb]
    dsimp only
    rw [hvchar, hk2f]
  · unfold EnigmaMachine.encryptChar
    rw [hstep]
    dsimp only
    rw [hk2b]
    dsimp only
    rw [char_to_idx_ALPH ⟨v.toNat, by omega⟩]
    rw [show ((v.toNat : Nat) : Int) = v by omega]
    rw [hvf]
    dsimp only
    rw [hub]
    dsimp only
    rw [htb]
    dsimp only
    rw [char_to_idx_ALPH k1, idx_to_char_lt _ (by positivity) (by exact_mod_cast k1.isLt),
      Int.toNat_natCast, hk1b]

theorem MInv_step {m : EnigmaMachine} (hm : MInv m) {rs' : List Rotor}
    (hstep : stepRotors m.rotors = some rs') :
    MInv { m with rotors := rs' } ∧ List.Forall₂ posEquiv m.rotors rs' := by
  obtain ⟨rs'', hstep2, hlen, hpe⟩ := stepRotors_three hm.1
  rw [hstep2] at hstep
  injection hstep with h
  subst h
  refine ⟨⟨hlen, ?_, hm.2.2.1, hm.2.2.2⟩, hpe⟩
  intro rot hr
  obtain ⟨r0, hr0, he⟩ := forall2_posEquiv_mem hpe hr
  exact tblInv_of_posEquiv (hm.2.1 r0 hr0) he

theorem forall2_posEquiv_trans {a b c : List Rotor}
    (h1 : List.Forall₂ posEquiv a b) (h2 : List.Forall₂ posEquiv b c) :
    List.Forall₂ posEquiv a c := by
  induction h1 generalizing c with
  | nil =>
    cases h2
    exact .nil
  | cons hab htail ih =>
    cases h2 with
    | cons hbc htail2 => exact .cons (posEquiv_trans hab hbc) (ih htail2)

/-- Master lemma of the encryption loop: over upper-case-stable input, the
loop succeeds, preserves the machine invariant, changes only rotor
positions, produces upper-case-stable output in which alphabetic inputs map
to letters and non-alphabetic inputs map to themselves, and running the
loop on the output from the same starting state restores the input. -/
theorem encryptChars_master :
    ∀ (xs : List Char) (m : EnigmaMachine), MInv m → (∀ c ∈ xs, c.toUpper = c) →
    ∃ (m' : EnigmaMachine) (ys : List Char),
      encryptChars m xs = some (m', ys) ∧
      MInv m' ∧
      List.Forall₂ posEquiv m.rotors m'.rotors ∧
      m'.plugboard = m.plugboard ∧ m'.reflector = m.reflector ∧
      (∀ c ∈ ys, c.toUpper = c) ∧
      List.Forall₂ (fun x y => (x.isAlpha = true → ∃ k : Fin 26, y = ALPH (k : Nat)) ∧
        (x.isAlpha = false → y = x)) xs ys ∧
      encryptChars m ys = some (m', xs) := by
  intro xs
  induction xs with
  | nil =>
    intro m hm _
    exact ⟨m, [], rfl, hm, List.forall₂_same.mpr (fun r _ => posEquiv_refl r), rfl, rfl,
      by simp, .nil, rfl⟩
  | cons c cs ih =>
    intro m hm hstable
    have hcs : c.toUpper = c := hstable c (by simp)
    cases ha : c.isAlpha with
    | true =>
      obtain ⟨jf, rfl⟩ := alpha_stable_eq_ALPH ha hcs
      obtain ⟨rs', k, hstep, henc1, henc2⟩ := encryptChar_invol hm jf
      obtain ⟨hm1, hpe1⟩ := MInv_step hm hstep
      obtain ⟨m2, ys, hrun, hm2, hpe2, hpb2, hrf2, hstab2, hf2, hback⟩ :=
        ih { m with rotors := rs' } hm1 (fun d hd => hstable d (by simp [hd]))
      refine ⟨m2, ALPH (k : Nat) :: ys, ?_, hm2, forall2_posEquiv_trans hpe1 hpe2,
        hpb2, hrf2, ?_, ?_, ?_⟩
      · simp only [encryptChars, ha, if_true, henc1, hrun]
      · intro d hd
        rcases List.mem_cons.mp hd with rfl | hmem
        · exact toUpper_ALPH k
        · exact hstab2 d hmem
      · exact .cons ⟨fun _ => ⟨k, rfl⟩, fun hcon => by rw [ha] at hcon; cases hcon⟩ hf2
      · simp only [encryptChars, isAlpha_ALPH k, if_true, henc2, hback]
    | false =>
      obtain ⟨m2, ys, hrun, hm2, hpe2, hpb2, hrf2, hstab2, hf2, hback⟩ :=
        ih m hm (fun d hd => hstable d (by simp [hd]))
      refine ⟨m2, c :: ys, ?_, hm2, hpe2, hpb2, hrf2, ?_, ?_, ?_⟩
      · simp only [encryptChars, ha, Bool.false_eq_true, if_false, hrun]
      · intro d hd
        rcases List.mem_cons.mp hd with rfl | hmem
        · exact hcs
        · exact hstab2 d hmem
      · exact .cons ⟨fun hcon => (by rw [ha] at hcon; cases hcon), fun _ => rfl⟩ hf2
      · simp only [encryptChars, ha, Bool.false_eq_true, if_false, hback]

/-! Plugboard construction: validity predicate and invariant. -/

/-- A pair list the spec calls valid (relative to letters already `used`):
each member is a letter, no pair connects a letter to itself (up to case),
and no letter (up to case) is used twice. -/
def validPairs : List Char → List (Char × Char) → Bool
  | _, [] => true
  | used, (a, b) :: rest =>
    a.isAlpha && b.isAlpha && !(a.toUpper == b.toUpper) &&
      !(used.contains a.toUpper) && !(used.contains b.toUpper) &&
      validPairs (a.toUpper :: b.toUpper :: used) rest

/-- The uppercased letters occurring in a pair list, in order. -/
def pairLetters : List (Char × Char) → List Char
  | [] => []
  | (a, b) :: rest => a.toUpper :: b.toUpper :: pairLetters rest

/-- Invariant of the plugboard construction loop: the wiring is an
involutive letter table that is the identity outside the `used` letters. -/
def PBInv (used w : List Char) : Prop :=
  w.length = 26 ∧ ∀ j : Fin 26, ∃ k : Fin 26,
    w.get? (j : Nat) = some (ALPH (k : Nat)) ∧ w.get? (k : Nat) = some (ALPH (j : Nat)) ∧
    (ALPH (j : Nat) ∉ used → k = j) ∧ (ALPH (k : Nat) ∉ used → k = j)

theorem PBInv_base (used : List Char) : PBInv used ALPHABET := by
  refine ⟨rfl, fun j => ⟨j, ?_, ?_, fun _ => rfl, fun _ => rfl⟩⟩ <;>
    exact (by decide : ∀ i : Fin 26, ALPHABET.get? (i : Nat) = some (ALPH (i : Nat))) j

theorem PBInv_congr {u1 u2 w : List Char} (h : ∀ c, c ∈ u1 ↔ c ∈ u2)
    (hp : PBInv u1 w) : PBInv u2 w := by
  obtain ⟨hw, hinv⟩ := hp
  refine ⟨hw, fun j => ?_⟩
  obtain ⟨k, h1, h2, h3, h4⟩ := hinv j
  exact ⟨k, h1, h2, fun hj => h3 (fun hc => hj ((h _).mp hc)),
    fun hk => h4 (fun hc => hk ((h _).mp hc))⟩

theorem invol_of_PBInv {used w : List Char} (h : PBInv used w) : Invol26 w := by
  obtain ⟨hw, hinv⟩ := h
  refine ⟨hw, hw, fun j => ?_⟩
  obtain ⟨k, h1, h2, _, _⟩ := hinv j
  exact ⟨k, h1, h2⟩

theorem PBInv_step {used w : List Char} (h : PBInv used w) {ia ib : Fin 26}
    (hne : ia ≠ ib) (ha : ALPH (ia : Nat) ∉ used) (hb : ALPH (ib : Nat) ∉ used) :
    PBInv (ALPH (ia : Nat) :: ALPH (ib : Nat) :: used)
      ((w.set (ia : Nat) (ALPH (ib : Nat))).set (ib : Nat) (ALPH (ia : Nat))) := by
  obtain ⟨hw, hinv⟩ := h
  have hlen : ((w.set (ia : Nat) (ALPH (ib : Nat))).set (ib : Nat) (ALPH (ia : Nat))).length = 26 := by
    simp [hw]
  have hne' : (ia : Nat) ≠ (ib : Nat) := fun hc => hne (Fin.ext hc)
  -- identity entries of w outside used
  have hid : ∀ i : Fin 26, ALPH (i : Nat) ∉ used → w.get? (i : Nat) = some (ALPH (i : Nat)) := by
    intro i hi
    obtain ⟨k, h1, _, h3, _⟩ := hinv i
    rw [h1, h3 hi]
  -- get? of the doubly-set list
  have hget : ∀ i : Fin 26,
      ((w.set (ia : Nat) (ALPH (ib : Nat))).set (ib : Nat) (ALPH (ia : Nat))).get? (i : Nat) =
      if (i : Nat) = (ib : Nat) then some (ALPH (ia : Nat))
      else if (i : Nat) = (ia : Nat) then some (ALPH (ib : Nat))
      else w.get? (i : Nat) := by
    intro i
    by_cases h1 : (i : Nat) = (ib : Nat)
    · rw [if_pos h1, h1, List.get?_set_eq_of_lt _ (by rw [List.length_set, hw]; exact ib.isLt)]
    · rw [if_neg h1, List.get?_set_ne _ _ (fun hc => h1 hc.symm)]
      by_cases h2 : (i : Nat) = (ia : Nat)
      · rw [if_pos h2, h2, List.get?_set_eq_of_lt _ (by rw [hw]; exact ia.isLt)]
      · rw [if_neg h2, List.get?_set_ne _ _ (fun hc => h2 hc.symm)]
  refine ⟨hlen, fun j => ?_⟩
  by_cases hj1 : j = ib
  · refine ⟨ia, ?_, ?_, ?_, ?_⟩
    · rw [hj1, hget ib, if_pos rfl]
    · rw [hget ia, if_neg (fun hc => hne (Fin.ext hc)), if_pos rfl, hj1]
    · intro hc
      exact absurd (by rw [hj1]; exact List.mem_cons_of_mem _ (List.mem_cons_self _ _)) hc
    · intro hc
      exact absurd (List.mem_cons_self _ _) hc
  · by_cases hj2 : j = ia
    · refine ⟨ib, ?_, ?_, ?_, ?_⟩
      · rw [hj2, hget ia, if_neg (fun hc => hne (Fin.ext hc)), if_pos rfl]
      · rw [hget ib, if_pos rfl, hj2]
      · intro hc
        exact absurd (by rw [hj2]; exact List.mem_cons_self _ _) hc
      · intro hc
        exact absurd (List.mem_cons_of_mem _ (List.mem_cons_self _ _)) hc
    · -- j untouched; its partner k is also untouched
      obtain ⟨k, h1, h2, h3, h4⟩ := hinv j
      have hkia : k ≠ ia := by
        intro hc
        exact hj2 (((h4 (by rw [hc]; exact ha)).symm.trans hc))
      have hkib : k ≠ ib := by
        intro hc
        exact hj1 (((h4 (by rw [hc]; exact hb)).symm.trans hc))
      refine ⟨k, ?_, ?_, ?_, ?_⟩
      · rw [hget j, if_neg (fun hc => hj1 (Fin.ext hc)), if_neg (fun hc => hj2 (Fin.ext hc))]
        exact h1
      · rw [hget k, if_neg (fun hc => hkib (Fin.ext hc)), if_neg (fun hc => hkia (Fin.ext hc))]
        exact h2
      · intro hc
        exact h3 (fun hmem => hc (by simp [hmem]))
      · intro hc
        exact h4 (fun hmem => hc (by simp [hmem]))

theorem contains_iff (l : List Char) (c : Char) : (l.contains c = true) ↔ c ∈ l := by
  simp [List.contains]

theorem toUpper_alpha_ALPH {c : Char} (h : c.isAlpha = true) :
    ∃ j : Fin 26, c.toUpper = ALPH (j : Nat) := by
  have hr : 65 ≤ c.toUpper.toNat ∧ c.toUpper.toNat ≤ 90 := by
    rw [toNat_toUpper]
    rcases (isAlpha_iff c).mp h with h1 | h1
    · rw [if_neg (by omega)]
      omega
    · rw [if_pos (by omega)]
      omega
  exact ⟨⟨c.toUpper.toNat - 65, by omega⟩, eq_ALPH_of_upper hr.1 hr.2⟩

theorem plugboardFold_ok : ∀ (pairs : List (Char × Char)) (used w : List Char),
    validPairs used pairs = true → PBInv used w →
    ∃ w', plugboardFold pairs used w = Except.ok w' ∧
      PBInv (pairLetters pairs ++ used) w' := by
  intro pairs
  induction pairs with
  | nil =>
    intro used w _ hw
    exact ⟨w, rfl, by simpa [pairLetters] using hw⟩
  | cons pr rest ih =>
    obtain ⟨a0, b0⟩ := pr
    intro used w hv hw
    simp only [validPairs, Bool.and_eq_true] at hv
    obtain ⟨⟨⟨⟨⟨hA, hB⟩, hC⟩, hD⟩, hE⟩, hF⟩ := hv
    rw [Bool.not_eq_true'] at hC hD hE
    obtain ⟨ja, hja⟩ := toUpper_alpha_ALPH hA
    obtain ⟨jb, hjb⟩ := toUpper_alpha_ALPH hB
    have hne : ja ≠ jb := by
      intro hc
      apply beq_eq_false_iff_ne.mp hC
      rw [hja, hjb, hc]
    have hna : ALPH (ja : Nat) ∉ used := by
      rw [← hja]
      intro hmem
      rw [(contains_iff used a0.toUpper).mpr hmem] at hD
      cases hD
    have hnb : ALPH (jb : Nat) ∉ used := by
      rw [← hjb]
      intro hmem
      rw [(contains_iff used b0.toUpper).mpr hmem] at hE
      cases hE
    have hstep := PBInv_step hw hne hna hnb
    simp only [plugboardFold]
    rw [hja, hjb] at hC
    rw [hja] at hD hF
    rw [hjb] at hE hF
    rw [hja, hjb]
    rw [if_neg (fun hc => hne (ALPH_inj ja jb hc))]
    rw [if_neg (by rw [hD, hE]; simp)]
    have hset1 : pySet w (char_to_idx (ALPH (ja : Nat))) (ALPH (jb : Nat)) =
        some (w.set (ja : Nat) (ALPH (jb : Nat))) := by
      rw [char_to_idx_ALPH ja,
        pySet_nonneg _ _ _ (by positivity) (by rw [Int.toNat_natCast, hw.1]; exact ja.isLt),
        Int.toNat_natCast]
    rw [hset1]
    dsimp only
    have hset2 : pySet (w.set (ja : Nat) (ALPH (jb : Nat))) (char_to_idx (ALPH (jb : Nat)))
        (ALPH (ja : Nat)) =
        some ((w.set (ja : Nat) (ALPH (jb : Nat))).set (jb : Nat) (ALPH (ja : Nat))) := by
      rw [char_to_idx_ALPH jb,
        pySet_nonneg _ _ _ (by positivity)
          (by rw [Int.toNat_natCast, List.length_set, hw.1]; exact jb.isLt),
        Int.toNat_natCast]
    rw [hset2]
    dsimp only
    obtain ⟨w', hrun, hinv'⟩ := ih (ALPH (ja : Nat) :: ALPH (jb : Nat) :: used) _ hF hstep
    refine ⟨w', hrun, PBInv_congr ?_ hinv'⟩
    intro c
    simp only [pairLetters, hja, hjb, List.mem_append, List.mem_cons]
    tauto

/-! Construction lemmas for the machine components. -/

theorem mkPlugboard_ok {pairs : List (Char × Char)} (hv : validPairs [] pairs = true) :
    ∃ pb, mkPlugboard pairs = Except.ok pb ∧ PBInv (pairLetters pairs) pb.wiring := by
  obtain ⟨w', hrun, hinv⟩ := plugboardFold_ok pairs [] ALPHABET hv (PBInv_base [])
  rw [List.append_nil] at hinv
  refine ⟨⟨w'⟩, ?_, hinv⟩
  unfold mkPlugboard
  rw [hrun]

theorem lookup_mem {α : Type} {l : List (String × α)} {k : String} {v : α}
    (h : l.lookup k = some v) : (k, v) ∈ l := by
  induction l with
  | nil => cases h
  | cons p rest ih =>
    obtain ⟨k', v'⟩ := p
    rw [List.lookup_cons] at h
    cases hk : (k == k') with
    | true =>
      rw [hk] at h
      simp only [] at h
      injection h with h
      subst h
      have hkk : k = k' := by simpa using hk
      subst hkk
      exact List.mem_cons_self _ _
    | false =>
      rw [hk] at h
      simp only [] at h
      exact List.mem_cons_of_mem _ (ih h)

theorem mkRotor_ok {name : String} (hname : (ROTOR_WIRINGS.lookup name).isSome = true)
    (p r : Char) :
    ∃ rot, mkRotor name p r = Except.ok rot ∧
      TblInv rot.wiring rot.reverse ∧ TblInv rot.reverse rot.wiring ∧
      rot.position = char_to_idx p ∧ rot.ring = char_to_idx r := by
  obtain ⟨wn, hwn⟩ := Option.isSome_iff_exists.mp hname
  obtain ⟨rv, hinv, ht1, ht2⟩ := catalog_TblInv (name, wn) (lookup_mem hwn)
  refine ⟨⟨name, wn.1.toList, rv, wn.2, char_to_idx p, char_to_idx r⟩, ?_, ht1, ht2, rfl, rfl⟩
  unfold mkRotor
  rw [hwn]
  dsimp only at hinv ⊢
  rw [hinv]

theorem mkRotors_ok : ∀ (ts : List (String × Char × Char)),
    (∀ t ∈ ts, (ROTOR_WIRINGS.lookup t.1).isSome = true) →
    ∃ rots, mkRotors ts = Except.ok rots ∧
      List.Forall₂ (fun (t : String × Char × Char) (rot : Rotor) =>
        TblInv rot.wiring rot.reverse ∧ TblInv rot.reverse rot.wiring ∧
        rot.position = char_to_idx t.2.1 ∧ rot.ring = char_to_idx t.2.2) ts rots := by
  intro ts
  induction ts with
  | nil => exact fun _ => ⟨[], rfl, .nil⟩
  | cons t rest ih =>
    intro hcat
    obtain ⟨n, p, r⟩ := t
    obtain ⟨rot, hrot, h1, h2, h3, h4⟩ := mkRotor_ok (hcat (n, p, r) (by simp)) p r
    obtain ⟨rots, hrots, hf⟩ := ih (fun t ht => hcat t (by simp [ht]))
    refine ⟨rot :: rots, ?_, .cons ⟨h1, h2, h3, h4⟩ hf⟩
    simp only [mkRotors]
    rw [hrot, hrots]

theorem mkReflector_ok {name : String} (h : (REFLECTORS.lookup name).isSome = true) :
    ∃ re, mkReflector name = Except.ok re ∧ Invol26 re.wiring := by
  obtain ⟨wn, hwn⟩ := Option.isSome_iff_exists.mp h
  refine ⟨⟨wn.toList⟩, ?_, catalog_refl_invol (name, wn) (lookup_mem hwn)⟩
  unfold mkReflector
  rw [hwn]

theorem forall2_mem_right {R : (String × Char × Char) → Rotor → Prop}
    {ts : List (String × Char × Char)} {rots : List Rotor}
    (hf : List.Forall₂ R ts rots) {rot : Rotor} (hrot : rot ∈ rots) :
    ∃ t ∈ ts, R t rot := by
  induction hf with
  | nil => cases hrot
  | cons hab htail ih =>
    rcases List.mem_cons.mp hrot with rfl | hmem
    · exact ⟨_, by simp, hab⟩
    · obtain ⟨t, ht, hp⟩ := ih hmem
      exact ⟨t, by simp [ht], hp⟩

/-- Successful construction from a fully valid configuration, together with
the machine invariant and the recorded starting positions. -/
theorem mkMachine_valid {names : List String} {P rings : List Char}
    {pairs : List (Char × Char)} {refl : String}
    (hn : names.length = 3) (hP : P.length = 3) (hr : rings.length = 3)
    (hcat : ∀ n ∈ names, (ROTOR_WIRINGS.lookup n).isSome = true)
    (hpb : validPairs [] pairs = true)
    (hrefl : (REFLECTORS.lookup refl).isSome = true) :
    ∃ m, mkMachine names P rings (some pairs) refl = Except.ok m ∧ MInv m ∧
      List.Forall₂ (fun p (rot : Rotor) => rot.position = char_to_idx p) P m.rotors := by
  obtain ⟨n1, n2, n3, rfl⟩ := List.length_eq_three.mp hn
  obtain ⟨p1, p2, p3, rfl⟩ := List.length_eq_three.mp hP
  obtain ⟨r1, r2, r3, rfl⟩ := List.length_eq_three.mp hr
  have hz : zip3 [n1, n2, n3] [p1, p2, p3] [r1, r2, r3] =
      [(n1, p1, r1), (n2, p2, r2), (n3, p3, r3)] := rfl
  obtain ⟨rots, hrots, hf⟩ := mkRotors_ok (zip3 [n1, n2, n3] [p1, p2, p3] [r1, r2, r3])
    (by
      intro t ht
      rw [hz] at ht
      simp only [List.mem_cons] at ht
      rcases ht with rfl | rfl | rfl | hc
      · exact hcat n1 (by simp)
      · exact hcat n2 (by simp)
      · exact hcat n3 (by simp)
      · cases hc)
  obtain ⟨pb, hpbok, hpbinv⟩ := mkPlugboard_ok hpb
  obtain ⟨re, hreok, hreinv⟩ := mkReflector_ok hrefl
  refine ⟨⟨rots, pb, re⟩, ?_, ?_, ?_⟩
  · unfold mkMachine
    rw [if_neg (by simp)]
    rw [hrots]
    dsimp only
    rw [show (some pairs).getD [] = pairs from rfl, hpbok]
    dsimp only
    rw [hreok]
  · refine ⟨?_, ?_, invol_of_PBInv hpbinv, hreinv⟩
    · have := List.Forall₂.length_eq hf
      rw [hz] at this
      simpa using this.symm
    · intro rot hrot
      obtain ⟨t, ht, hprop⟩ := forall2_mem_right hf hrot
      exact ⟨hprop.1, hprop.2.1⟩
  · rw [hz] at hf
    cases hf with
    | cons h1 hf1 =>
      cases hf1 with
      | cons h2 hf2 =>
        cases hf2 with
        | cons h3 hf3 =>
          cases hf3
          exact .cons h1.2.2.1 (.cons h2.2.2.1 (.cons h3.2.2.1 .nil))

/-! Resetting restores the constructed machine. -/

theorem setPos_eq {r r' : Rotor} (he : posEquiv r r') (x : Int) :
    ({ r' with position := x } : Rotor) = { r with position := x } := by
  obtain ⟨e1, e2, e3, e4, e5⟩ := he
  cases r
  cases r'
  simp_all

theorem reset_restores : ∀ {P : List Char} {rs rs' : List Rotor},
    List.Forall₂ posEquiv rs rs' →
    List.Forall₂ (fun p (rot : Rotor) => rot.position = char_to_idx p) P rs →
    resetRotors rs' P = rs := by
  intro P rs rs' hpe hpos
  induction hpos generalizing rs' with
  | nil =>
    cases hpe
    rfl
  | cons hpr htail ih =>
    cases hpe with
    | cons hab htail2 =>
      simp only [resetRotors]
      rw [setPos_eq hab, ← hpr]
      rw [ih htail2]

/-- C1: for every valid machine configuration (3 catalog rotors, ring
settings, valid plugboard pair list, catalog reflector), every starting
positions P and every input text, encrypting from P, then resetting the
rotor positions to P and encrypting the ciphertext, reproduces the original
text after uppercasing, with non-alphabetic characters passed through. -/
theorem enigma_encrypt_involution {names : List String} {P rings : List Char}
    {pairs : List (Char × Char)} {refl : String}
    (hn : names.length = 3) (hP : P.length = 3) (hr : rings.length = 3)
    (hcat : ∀ n ∈ names, (ROTOR_WIRINGS.lookup n).isSome = true)
    (hpb : validPairs [] pairs = true)
    (hrefl : (REFLECTORS.lookup refl).isSome = true)
    (text : List Char) :
    ∃ m m1 ct, mkMachine names P rings (some pairs) refl = Except.ok m ∧
      m.encrypt text = some (m1, ct) ∧
      (m1.reset P).encrypt ct = some (m1, text.map Char.toUpper) := by
  obtain ⟨m, hmk, hminv, hpos⟩ := mkMachine_valid hn hP hr hcat hpb hrefl
  obtain ⟨m1, ct, hrun, hm1, hpe, hpb1, hrf1, hstab, _, hback⟩ :=
    encryptChars_master (text.map Char.toUpper) m hminv (mapUpper_stable text)
  refine ⟨m, m1, ct, hmk, hrun, ?_⟩
  have hreset : m1.reset P = m := by
    unfold EnigmaMachine.reset
    have hrots : resetRotors m1.rotors P = m.rotors := reset_restores hpe hpos
    cases m
    cases m1
    simp_all
  rw [hreset]
  unfold EnigmaMachine.encrypt
  rw [map_toUpper_of_stable hstab]
  exact hback

/-- Witness for C1 at a concrete configuration and text. -/
theorem enigma_encrypt_involution_witness :
    (["I", "II", "III"] : List String).length = 3 ∧
    validPairs [] [('A', 'Z')] = true ∧
    ∃ m m1 ct, mkMachine ["I", "II", "III"] ['A', 'A', 'A'] ['A', 'A', 'A']
        (some [('A', 'Z')]) "B" = Except.ok m ∧
      m.encrypt ['A', 'B'] = some (m1, ct) ∧
      (m1.reset ['A', 'A', 'A']).encrypt ct =
        some (m1, (['A', 'B'] : List Char).map Char.toUpper) :=
  ⟨rfl, by decide,
    @enigma_encrypt_involution ["I", "II", "III"] ['A', 'A', 'A'] ['A', 'A', 'A']
      [('A', 'Z')] "B" rfl rfl rfl (by decide) (by decide) (by decide) ['A', 'B']⟩

/-- Demo-style keypress: encrypt one `'A'` and keep the mutated machine
(the demo discards the ciphertext and reads the rotor windows). -/
def pressOnce (m : EnigmaMachine) : EnigmaMachine :=
  match m.encrypt ['A'] with
  | some (m', _) => m'
  | none => m

set_option maxHeartbeats 1000000 in
/-- C2 counterexample: with rotors I, II, III starting at window positions
A, D, U, the second single-character encryption leaves the windows at
A E W, not the claimed A D W. -/
theorem stepping_sequence_counterexample :
    (mkMachine ["I", "II", "III"] ['A', 'D', 'U'] ['A', 'A', 'A'] none "B").toOption.map
        (fun m0 => windows (pressOnce (pressOnce m0))) =
      some [some 'A', some 'E', some 'W'] ∧
    [some 'A', some 'E', some 'W'] ≠ [some 'A', some 'D', some 'W'] := by
  constructor
  · decide
  · decide

set_option maxHeartbeats 1000000 in
/-- C2 amended: the four successive single-character encryptions from
windows A D U actually leave the windows at A D V, then A E W, then B F X,
then B F Y (the double step is visible at the third press). -/
theorem stepping_sequence_actual :
    (mkMachine ["I", "II", "III"] ['A', 'D', 'U'] ['A', 'A', 'A'] none "B").toOption.map
        (fun m0 =>
          [windows (pressOnce m0),
           windows (pressOnce (pressOnce m0)),
           windows (pressOnce (pressOnce (pressOnce m0))),
           windows (pressOnce (pressOnce (pressOnce (pressOnce m0))))]) =
      some [[some 'A', some 'D', some 'V'],
            [some 'A', some 'E', some 'W'],
            [some 'B', some 'F', some 'X'],
            [some 'B', some 'F', some 'Y']] := by
  decide

/-- C3: one invocation of the stepping mechanism advances the right rotor
always, the middle rotor exactly when (on pre-step positions) the middle
rotor is at its notch or the right rotor is at its notch, and the left
rotor exactly when the middle rotor is at its notch; advanced positions are
taken modulo 26 and nothing else changes. -/
theorem step_rotors_snapshot_spec (l m r : Rotor) :
    stepRotors [l, m, r] = some
      [ { l with position := if m.is_at_notch then (l.position + 1) % 26 else l.position },
        { m with position :=
            if m.is_at_notch || r.is_at_notch then (m.position + 1) % 26 else m.position },
        { r with position := (r.position + 1) % 26 } ] := by
  simp only [stepRotors]
  by_cases h1 : m.is_at_notch
  · rw [if_pos h1]
    simp [Rotor.step, h1]
  · rw [if_neg h1]
    by_cases h2 : r.is_at_notch
    · rw [if_pos h2]
      simp [Rotor.step, h1, h2]
    · rw [if_neg h2]
      simp [Rotor.step, h1, h2]

set_option maxHeartbeats 1000000 in
/-- C5: every catalog reflector is successfully constructed from its name,
maps every index to a different index, and reflecting twice is the
identity. -/
theorem reflector_involutive_no_fixed_point :
    ∀ p ∈ REFLECTORS, (mkReflector p.1).toOption = some ⟨p.2.toList⟩ ∧ ∀ i : Fin 26,
      ∃ j : Fin 26, Reflector.reflect ⟨p.2.toList⟩ ((i : Nat) : Int) = some ((j : Nat) : Int) ∧
        j ≠ i ∧ Reflector.reflect ⟨p.2.toList⟩ ((j : Nat) : Int) = some ((i : Nat) : Int) := by
  decide

/-- Witness for C5 at reflector B and index 0 (via the theorem itself). -/
theorem reflector_involutive_no_fixed_point_witness :
    (("B", "YRUHQSLDPXNGOKMIEBFZCWVJAT") ∈ REFLECTORS) ∧
    ((mkReflector "B").toOption = some ⟨"YRUHQSLDPXNGOKMIEBFZCWVJAT".toList⟩ ∧
      ∀ i : Fin 26, ∃ j : Fin 26,
        Reflector.reflect ⟨"YRUHQSLDPXNGOKMIEBFZCWVJAT".toList⟩ ((i : Nat) : Int) =
          some ((j : Nat) : Int) ∧ j ≠ i ∧
        Reflector.reflect ⟨"YRUHQSLDPXNGOKMIEBFZCWVJAT".toList⟩ ((j : Nat) : Int) =
          some ((i : Nat) : Int)) :=
  ⟨by decide,
    reflector_involutive_no_fixed_point ("B", "YRUHQSLDPXNGOKMIEBFZCWVJAT") (by decide)⟩

/-- C6: a plugboard built from a valid pair list is an involution on the
letters, and unpaired letters map to themselves. -/
theorem plugboard_forward_involution (pairs : List (Char × Char))
    (hv : validPairs [] pairs = true) :
    ∃ pb, mkPlugboard pairs = Except.ok pb ∧
      (∀ j : Fin 26, ∃ d, pb.forward (ALPH (j : Nat)) = some d ∧
        pb.forward d = some (ALPH (j : Nat))) ∧
      (∀ j : Fin 26, ALPH (j : Nat) ∉ pairLetters pairs →
        pb.forward (ALPH (j : Nat)) = some (ALPH (j : Nat))) := by
  obtain ⟨pb, hok, hinv⟩ := mkPlugboard_ok hv
  refine ⟨pb, hok, ?_, ?_⟩
  · intro j
    obtain ⟨k, h1, h2⟩ := pb_forward_pair (invol_of_PBInv hinv) j
    exact ⟨ALPH (k : Nat), h1, h2⟩
  · intro j hj
    obtain ⟨hw, hpbi⟩ := hinv
    obtain ⟨k, h1, h2, h3, h4⟩ := hpbi j
    have hkj : k = j := h3 hj
    rw [hkj] at h1
    unfold Plugboard.forward
    rw [char_to_idx_ALPH j, pyIdx_nonneg _ _ (by positivity), Int.toNat_natCast, h1]

/-- Witness for C6 with the single pair A-Z, via the theorem itself. -/
theorem plugboard_forward_involution_witness :
    validPairs [] [('A', 'Z')] = true ∧
    (∃ pb, mkPlugboard [('A', 'Z')] = Except.ok pb ∧
      (∀ j : Fin 26, ∃ d, pb.forward (ALPH (j : Nat)) = some d ∧
        pb.forward d = some (ALPH (j : Nat))) ∧
      (∀ j : Fin 26, ALPH (j : Nat) ∉ pairLetters [('A', 'Z')] →
        pb.forward (ALPH (j : Nat)) = some (ALPH (j : Nat)))) :=
  ⟨by decide, plugboard_forward_involution [('A', 'Z')] (by decide)⟩

theorem mkRotor_inv_of_ok {name : String} {p r : Char} {rot : Rotor}
    (h : mkRotor name p r = Except.ok rot) :
    TblInv rot.wiring rot.reverse ∧ TblInv rot.reverse rot.wiring := by
  unfold mkRotor at h
  cases hlk : ROTOR_WIRINGS.lookup name with
  | none =>
    rw [hlk] at h
    cases h
  | some wn =>
    rw [hlk] at h
    obtain ⟨w, notch⟩ := wn
    dsimp only at h
    cases hinv : invert w.toList with
    | none =>
      rw [hinv] at h
      cases h
    | some rv =>
      rw [hinv] at h
      dsimp only at h
      injection h with h
      subst h
      obtain ⟨rv', hinv', ht1, ht2⟩ := catalog_TblInv (name, (w, notch)) (lookup_mem hlk)
      dsimp only at hinv'
      rw [hinv] at hinv'
      injection hinv' with he
      subst he
      exact ⟨ht1, ht2⟩

/-- C7: for every rotor successfully built from the catalog, at any fixed
position and ring setting, decoding backward after encoding forward is the
identity on indices, and the precomputed inverse table inverts the wiring
entrywise. -/
theorem rotor_backward_forward_inverse (name : String) (p r : Char) (rot : Rotor)
    (hrot : mkRotor name p r = Except.ok rot) :
    (∀ i : Fin 26,
      (rot.forward ((i : Nat) : Int)).bind rot.backward = some ((i : Nat) : Int)) ∧
    (∀ j : Fin 26, ∃ c, rot.wiring.get? (j : Nat) = some c ∧
      rot.reverse.get? (char_to_idx c).toNat = some (ALPH (j : Nat))) := by
  obtain ⟨ht1, ht2⟩ := mkRotor_inv_of_ok hrot
  constructor
  · intro i
    obtain ⟨t, hf, h0, h1, hb⟩ := @rotorEncode_inv rot.wiring rot.reverse ht1
      (rot.position - rot.ring) ((i : Nat) : Int) (by positivity) (by exact_mod_cast i.isLt)
    rw [show rot.forward ((i : Nat) : Int) = some t from hf]
    exact hb
  · intro j
    obtain ⟨hw, hrv, hinv⟩ := ht1
    obtain ⟨k, h1, h2⟩ := hinv j
    refine ⟨ALPH (k : Nat), h1, ?_⟩
    rw [char_to_idx_ALPH k, Int.toNat_natCast]
    exact h2

/-- The rotor built from catalog entry I at window A, ring A (used as a
concrete witness input). -/
def rotorI : Rotor := (mkRotor "I" 'A' 'A').toOption.getD ⟨"", [], [], 'A', 0, 0⟩

/-- Witness for C7 at rotor I, position A, ring A, via the theorem itself. -/
theorem rotor_backward_forward_inverse_witness :
    mkRotor "I" 'A' 'A' = Except.ok rotorI ∧
    ((∀ i : Fin 26,
      (rotorI.forward ((i : Nat) : Int)).bind rotorI.backward = some ((i : Nat) : Int)) ∧
    (∀ j : Fin 26, ∃ c, rotorI.wiring.get? (j : Nat) = some c ∧
      rotorI.reverse.get? (char_to_idx c).toNat = some (ALPH (j : Nat)))) :=
  ⟨rfl, rotor_backward_forward_inverse "I" 'A' 'A' rotorI rfl⟩

theorem isAlpha_toUpper (c : Char) : c.toUpper.isAlpha = c.isAlpha := by
  by_cases h : 97 ≤ c.toNat ∧ c.toNat ≤ 122
  · have h1 : c.isAlpha = true := (isAlpha_iff c).mpr (Or.inr h)
    have h2 : c.toUpper.isAlpha = true :=
      (isAlpha_iff _).mpr (Or.inl (by rw [toNat_toUpper, if_pos h]; omega))
    rw [h1, h2]
  · have he : c.toUpper = c := by
      rw [toUpper_eq, if_neg]
      exact fun hc => h ⟨hc.1, hc.2⟩
    rw [he]

theorem forall2_get? {R : Char → Char → Prop} :
    ∀ {xs ys : List Char}, List.Forall₂ R xs ys →
    ∀ {i : Nat} {x : Char}, xs.get? i = some x → ∃ y, ys.get? i = some y ∧ R x y := by
  intro xs ys h
  induction h with
  | nil =>
    intro i x hx
    cases hx
  | cons hab htail ih =>
    intro i x hx
    cases i with
    | zero =>
      injection hx with hx
      subst hx
      exact ⟨_, rfl, hab⟩
    | succ n => exact ih hx

/-- C4: with a valid configuration, encryption of any input string returns a
result (no error path is reachable): the output has the same length, every
alphabetic input character (after uppercasing) yields a letter, and every
non-alphabetic character passes through unchanged. -/
theorem encrypt_no_runtime_error {names : List String} {P rings : List Char}
    {pairs : List (Char × Char)} {refl : String}
    (hn : names.length = 3) (hP : P.length = 3) (hr : rings.length = 3)
    (hcat : ∀ n ∈ names, (ROTOR_WIRINGS.lookup n).isSome = true)
    (hpb : validPairs [] pairs = true)
    (hrefl : (REFLECTORS.lookup refl).isSome = true)
    (m : EnigmaMachine) (hm : mkMachine names P rings (some pairs) refl = Except.ok m)
    (text : List Char) :
    ∃ m' out, m.encrypt text = some (m', out) ∧ out.length = text.length ∧
      ∀ i c, text.get? i = some c →
        (c.isAlpha = true → ∃ k : Fin 26, out.get? i = some (ALPH (k : Nat))) ∧
        (c.isAlpha = false → out.get? i = some c) := by
  obtain ⟨m0, hmk, hminv, _⟩ := mkMachine_valid hn hP hr hcat hpb hrefl
  rw [hm] at hmk
  injection hmk with hmk
  subst hmk
  obtain ⟨m1, ys, hrun, _, _, _, _, _, hrel, _⟩ :=
    encryptChars_master (text.map Char.toUpper) m hminv (mapUpper_stable text)
  refine ⟨m1, ys, hrun, ?_, ?_⟩
  · have := List.Forall₂.length_eq hrel
    simpa using this.symm
  · intro i c hc
    have hxs : (text.map Char.toUpper).get? i = some c.toUpper := by
      rw [List.get?_map, hc]
      rfl
    obtain ⟨y, hy, hrel1, hrel2⟩ := forall2_get? hrel hxs
    constructor
    · intro ha
      obtain ⟨k, hk⟩ := hrel1 (by rw [isAlpha_toUpper, ha])
      exact ⟨k, by rw [hy, hk]⟩
    · intro ha
      have h1 := hrel2 (by rw [isAlpha_toUpper, ha])
      rw [hy, h1, toUpper_nonalpha ha]

/-- A concrete machine from a valid configuration, used as witness input. -/
def sampleMachine : EnigmaMachine :=
  (mkMachine ["I", "II", "III"] ['A', 'A', 'A'] ['A', 'A', 'A']
    (some [('A', 'Z')]) "B").toOption.getD ⟨[], ⟨[]⟩, ⟨[]⟩⟩

/-- Witness for C4 on the text "AB CD", via the theorem itself. -/
theorem encrypt_no_runtime_error_witness :
    mkMachine ["I", "II", "III"] ['A', 'A', 'A'] ['A', 'A', 'A']
      (some [('A', 'Z')]) "B" = Except.ok sampleMachine ∧
    ∃ m' out, sampleMachine.encrypt ['A', 'B', ' ', 'C', 'D'] = some (m', out) ∧
      out.length = (['A', 'B', ' ', 'C', 'D'] : List Char).length ∧
      ∀ i c, (['A', 'B', ' ', 'C', 'D'] : List Char).get? i = some c →
        (c.isAlpha = true → ∃ k : Fin 26, out.get? i = some (ALPH (k : Nat))) ∧
        (c.isAlpha = false → out.get? i = some c) :=
  ⟨rfl, @encrypt_no_runtime_error ["I", "II", "III"] ['A', 'A', 'A'] ['A', 'A', 'A']
    [('A', 'Z')] "B" rfl rfl rfl (by decide) (by decide) (by decide)
    sampleMachine rfl ['A', 'B', ' ', 'C', 'D']⟩

theorem encryptChars_length : ∀ (xs : List Char) (m : EnigmaMachine)
    (r : EnigmaMachine × List Char), encryptChars m xs = some r → r.2.length = xs.length := by
  intro xs
  induction xs with
  | nil =>
    intro m r h
    injection h with h
    subst h
    rfl
  | cons c cs ih =>
    intro m r h
    simp only [encryptChars] at h
    by_cases ha : c.isAlpha
    · rw [if_pos ha] at h
      cases hec : m.encryptChar c with
      | none =>
        rw [hec] at h
        cases h
      | some p =>
        obtain ⟨m1, d⟩ := p
        rw [hec] at h
        dsimp only at h
        cases hrec : encryptChars m1 cs with
        | none =>
          rw [hrec] at h
          cases h
        | some q =>
          obtain ⟨m2, ds⟩ := q
          rw [hrec] at h
          dsimp only at h
          injection h with h
          subst h
          simpa using ih m1 (m2, ds) hrec
    · rw [if_neg ha] at h
      cases hrec : encryptChars m cs with
      | none =>
        rw [hrec] at h
        cases h
      | some q =>
        obtain ⟨m2, ds⟩ := q
        rw [hrec] at h
        dsimp only at h
        injection h with h
        subst h
        simpa using ih m (m2, ds) hrec

theorem encryptChars_append : ∀ (xs : List Char) (m : EnigmaMachine) (ys : List Char),
    encryptChars m (xs ++ ys) =
      match encryptChars m xs with
      | none => none
      | some (m1, os) =>
        match encryptChars m1 ys with
        | none => none
        | some (m2, os2) => some (m2, os ++ os2) := by
  intro xs
  induction xs with
  | nil =>
    intro m ys
    rw [List.nil_append]
    show encryptChars m ys =
      match encryptChars m ys with
      | none => none
      | some (m2, os2) => some (m2, [] ++ os2)
    cases hr : encryptChars m ys with
    | none => rfl
    | some r =>
      obtain ⟨m2, os2⟩ := r
      rfl
  | cons c cs ih =>
    intro m ys
    rw [List.cons_append]
    simp only [encryptChars]
    by_cases ha : c.isAlpha
    · rw [if_pos ha, if_pos ha]
      cases hec : m.encryptChar c with
      | none => rfl
      | some p =>
        obtain ⟨m1, d⟩ := p
        dsimp only
        rw [ih m1 ys]
        cases hrec : encryptChars m1 cs with
        | none => rfl
        | some q =>
          obtain ⟨m2, os⟩ := q
          dsimp only
          cases hr2 : encryptChars m2 ys with
          | none => rfl
          | some r2 =>
            obtain ⟨m3, os2⟩ := r2
            rfl
    · rw [if_neg ha, if_neg ha]
      rw [ih m ys]
      cases hrec : encryptChars m cs with
      | none => rfl
      | some q =>
        obtain ⟨m2, os⟩ := q
        dsimp only
        cases hr2 : encryptChars m2 ys with
        | none => rfl
        | some r2 =>
          obtain ⟨m3, os2⟩ := r2
          rfl

/-- C8: a non-alphabetic character passes through unchanged at its position
and contributes no rotor step: encrypting around it is exactly encrypting
the prefix, then the suffix from the same machine state, with the character
spliced in unchanged; and the prefix output has the prefix's length, so the
character sits at its original position. -/
theorem nonalpha_passthrough_spec (m : EnigmaMachine) (pre post : List Char) (c : Char)
    (hc : c.isAlpha = false) :
    m.encrypt (pre ++ c :: post) =
      (match m.encrypt pre with
       | none => none
       | some (m1, o1) =>
         match encryptChars m1 (post.map Char.toUpper) with
         | none => none
         | some (m2, o2) => some (m2, o1 ++ c :: o2)) ∧
    ∀ r : EnigmaMachine × List Char, m.encrypt pre = some r → r.2.length = pre.length := by
  constructor
  · unfold EnigmaMachine.encrypt
    rw [List.map_append, List.map_cons, toUpper_nonalpha hc]
    rw [encryptChars_append]
    cases h1 : encryptChars m (pre.map Char.toUpper) with
    | none => rfl
    | some r1 =>
      obtain ⟨m1, o1⟩ := r1
      dsimp only
      simp only [encryptChars, hc, Bool.false_eq_true, if_false]
      cases h2 : encryptChars m1 (post.map Char.toUpper) with
      | none => rfl
      | some r2 =>
        obtain ⟨m2, o2⟩ := r2
        rfl
  · intro r hr
    have h := encryptChars_length (pre.map Char.toUpper) m r hr
    simpa using h

/-- Witness for C8 on "AB CD" with the space, via the theorem itself. -/
theorem nonalpha_passthrough_spec_witness :
    (' '.isAlpha = false) ∧
    (sampleMachine.encrypt (['A', 'B'] ++ ' ' :: ['C', 'D']) =
      (match sampleMachine.encrypt ['A', 'B'] with
       | none => none
       | some (m1, o1) =>
         match encryptChars m1 ((['C', 'D'] : List Char).map Char.toUpper) with
         | none => none
         | some (m2, o2) => some (m2, o1 ++ ' ' :: o2)) ∧
    ∀ r : EnigmaMachine × List Char, sampleMachine.encrypt ['A', 'B'] = some r →
      r.2.length = (['A', 'B'] : List Char).length) :=
  ⟨by decide, nonalpha_passthrough_spec sampleMachine ['A', 'B'] ['C', 'D'] ' ' (by decide)⟩

theorem zip3_fst_mem : ∀ (ns : List String) (ps rs : List Char) (t : String × Char × Char),
    t ∈ zip3 ns ps rs → t.1 ∈ ns := by
  intro ns
  induction ns with
  | nil =>
    intro ps rs t ht
    cases ps <;> cases rs <;> cases ht
  | cons n ns ih =>
    intro ps rs t ht
    cases ps with
    | nil => cases ht
    | cons p ps =>
      cases rs with
      | nil => cases ht
      | cons r rs =>
        rcases List.mem_cons.mp ht with rfl | hmem
        · exact List.mem_cons_self _ _
        · exact List.mem_cons_of_mem _ (ih ps rs t hmem)

theorem zip3_length : ∀ (ns : List String) (ps rs : List Char),
    (zip3 ns ps rs).length = min ns.length (min ps.length rs.length) := by
  intro ns
  induction ns with
  | nil =>
    intro ps rs
    show (0 : Nat) = _
    simp
  | cons n ns ih =>
    intro ps rs
    cases ps with
    | nil =>
      show (0 : Nat) = _
      simp
    | cons p ps =>
      cases rs with
      | nil =>
        show (0 : Nat) = _
        simp
      | cons r rs =>
        show (zip3 ns ps rs).length + 1 = _
        rw [ih ps rs]
        simp only [List.length_cons]
        omega

theorem resetRotors_length : ∀ (rs : List Rotor) (ps : List Char),
    (resetRotors rs ps).length = rs.length := by
  intro rs
  induction rs with
  | nil =>
    intro ps
    cases ps <;> rfl
  | cons r rs ih =>
    intro ps
    cases ps with
    | nil => rfl
    | cons p ps =>
      show (resetRotors rs ps).length + 1 = rs.length + 1
      rw [ih ps]

theorem resetRotors_get_ge : ∀ (rs : List Rotor) (ps : List Char) (i : Nat),
    ps.length ≤ i → (resetRotors rs ps).get? i = rs.get? i := by
  intro rs
  induction rs with
  | nil =>
    intro ps i _
    cases ps <;> rfl
  | cons r rs ih =>
    intro ps i hi
    cases ps with
    | nil => rfl
    | cons p ps =>
      cases i with
      | zero => simp at hi
      | succ n =>
        show (resetRotors rs ps).get? n = rs.get? n
        exact ih ps n (by simpa using hi)

theorem resetRotors_get_lt : ∀ (rs : List Rotor) (ps : List Char) (i : Nat)
    (pi : Char) (ri : Rotor), ps.get? i = some pi → rs.get? i = some ri →
    (resetRotors rs ps).get? i = some { ri with position := char_to_idx pi } := by
  intro rs
  induction rs with
  | nil =>
    intro ps i pi ri _ hri
    cases hri
  | cons r rs ih =>
    intro ps i pi ri hpi hri
    cases ps with
    | nil => cases hpi
    | cons p ps =>
      cases i with
      | zero =>
        injection hpi with hpi
        injection hri with hri
        subst hpi
        subst hri
        rfl
      | succ n => exact ih ps n pi ri hpi hri

/-- C10: with 3 catalog rotor names but a positions or ring-settings list
shorter than 3, construction succeeds silently and the machine holds one
rotor per entry of the shortest list; and reset with a short list updates
only the corresponding leading rotors, leaving the rest untouched. -/
theorem short_positions_truncate_silently
    (names : List String) (P rings : List Char) (pairs : List (Char × Char)) (refl : String)
    (hn : names.length = 3)
    (hcat : ∀ n ∈ names, (ROTOR_WIRINGS.lookup n).isSome = true)
    (hpb : validPairs [] pairs = true)
    (hrefl : (REFLECTORS.lookup refl).isSome = true)
    (hshort : min P.length rings.length < 3) :
    (∃ m, mkMachine names P rings (some pairs) refl = Except.ok m ∧
      m.rotors.length = min P.length rings.length ∧ m.rotors.length < 3) ∧
    (∀ (mm : EnigmaMachine) (ps : List Char),
      (mm.reset ps).rotors.length = mm.rotors.length ∧
      (∀ i : Nat, ps.length ≤ i → (mm.reset ps).rotors.get? i = mm.rotors.get? i) ∧
      (∀ (i : Nat) (pi : Char) (ri : Rotor), ps.get? i = some pi →
        mm.rotors.get? i = some ri →
        (mm.reset ps).rotors.get? i = some { ri with position := char_to_idx pi })) := by
  constructor
  · obtain ⟨rots, hrots, hf⟩ := mkRotors_ok (zip3 names P rings)
      (fun t ht => hcat t.1 (zip3_fst_mem names P rings t ht))
    obtain ⟨pb, hpbok, _⟩ := mkPlugboard_ok hpb
    obtain ⟨re, hreok, _⟩ := mkReflector_ok hrefl
    have hlen : rots.length = min P.length rings.length := by
      have h1 := List.Forall₂.length_eq hf
      rw [zip3_length, hn] at h1
      omega
    refine ⟨⟨rots, pb, re⟩, ?_, hlen, by show rots.length < 3; omega⟩
    unfold mkMachine
    rw [if_neg (by omega)]
    rw [hrots]
    dsimp only
    rw [show (some pairs).getD [] = pairs from rfl, hpbok]
    dsimp only
    rw [hreok]
  · intro mm ps
    refine ⟨resetRotors_length mm.rotors ps, ?_, ?_⟩
    · intro i hi
      exact resetRotors_get_ge mm.rotors ps i hi
    · intro i pi ri hpi hri
      exact resetRotors_get_lt mm.rotors ps i pi ri hpi hri

/-- Witness for C10 with a 2-entry positions list, via the theorem itself. -/
theorem short_positions_truncate_silently_witness :
    (["I", "II", "III"] : List String).length = 3 ∧
    min (['A', 'A'] : List Char).length (['A', 'A', 'A'] : List Char).length < 3 ∧
    ((∃ m, mkMachine ["I", "II", "III"] ['A', 'A'] ['A', 'A', 'A'] (some []) "B" =
        Except.ok m ∧
      m.rotors.length = min (['A', 'A'] : List Char).length
        (['A', 'A', 'A'] : List Char).length ∧ m.rotors.length < 3) ∧
    (∀ (mm : EnigmaMachine) (ps : List Char),
      (mm.reset ps).rotors.length = mm.rotors.length ∧
      (∀ i : Nat, ps.length ≤ i → (mm.reset ps).rotors.get? i = mm.rotors.get? i) ∧
      (∀ (i : Nat) (pi : Char) (ri : Rotor), ps.get? i = some pi →
        mm.rotors.get? i = some ri →
        (mm.reset ps).rotors.get? i = some { ri with position := char_to_idx pi }))) :=
  ⟨rfl, by decide,
    short_positions_truncate_silently ["I", "II", "III"] ['A', 'A'] ['A', 'A', 'A'] [] "B"
      rfl (by decide) (by decide) (by decide) (by decide)⟩

/-- Over letter pairs, the loop's validity predicate says exactly: no pair
connects a letter to itself (after uppercasing), the uppercased pair
letters are pairwise distinct, and none of them was already used. -/
theorem validPairs_iff : ∀ (pairs : List (Char × Char)) (used : List Char),
    (∀ pq ∈ pairs, pq.1.isAlpha = true ∧ pq.2.isAlpha = true) →
    (validPairs used pairs = true ↔
      (∀ pq ∈ pairs, pq.1.toUpper ≠ pq.2.toUpper) ∧ (pairLetters pairs).Nodup ∧
      (∀ c ∈ pairLetters pairs, c ∉ used)) := by
  intro pairs
  induction pairs with
  | nil =>
    intro used _
    simp [validPairs, pairLetters]
  | cons pr rest ih =>
    intro used hl
    obtain ⟨a, b⟩ := pr
    have hla := (hl (a, b) (by simp)).1
    have hlb := (hl (a, b) (by simp)).2
    simp only [validPairs, Bool.and_eq_true, hla, hlb, eq_self_iff_true, true_and,
      Bool.not_eq_true']
    rw [ih (a.toUpper :: b.toUpper :: used) (fun pq hpq => hl pq (by simp [hpq]))]
    simp only [pairLetters, List.nodup_cons, List.mem_cons, not_or,
      List.forall_mem_cons, beq_eq_false_iff_ne, ne_eq]
    constructor
    · rintro ⟨⟨⟨hab, hcu⟩, hcv⟩, hrs, hnd, hall⟩
      have hau : a.toUpper ∉ used := by
        intro hmem
        rw [(contains_iff used a.toUpper).mpr hmem] at hcu
        cases hcu
      have hbu : b.toUpper ∉ used := by
        intro hmem
        rw [(contains_iff used b.toUpper).mpr hmem] at hcv
        cases hcv
      refine ⟨?_, ⟨⟨hab, fun hmem => (hall _ hmem).1 rfl⟩,
        fun hmem => (hall _ hmem).2.1 rfl, hnd⟩, ?_⟩
      · rintro pq (rfl | hm)
        · exact hab
        · exact hrs pq hm
      · rintro c (rfl | rfl | hm)
        · exact hau
        · exact hbu
        · exact (hall c hm).2.2
    · rintro ⟨hpq, ⟨⟨hab, hanotin⟩, hbnotin, hnd⟩, hused⟩
      refine ⟨⟨⟨hab, ?_⟩, ?_⟩, fun pq hm => hpq pq (Or.inr hm), hnd,
        fun c hm => ⟨fun h => hanotin (h ▸ hm), fun h => hbnotin (h ▸ hm),
          hused c (Or.inr (Or.inr hm))⟩⟩
      · rw [Bool.eq_false_iff]
        intro hc
        exact hused a.toUpper (Or.inl rfl) ((contains_iff used a.toUpper).mp hc)
      · rw [Bool.eq_false_iff]
        intro hc
        exact hused b.toUpper (Or.inr (Or.inl rfl)) ((contains_iff used b.toUpper).mp hc)

theorem plugboardFold_ok_valid : ∀ (pairs : List (Char × Char)) (used w : List Char),
    (∀ pq ∈ pairs, pq.1.isAlpha = true ∧ pq.2.isAlpha = true) →
    w.length = 26 → ∀ w', plugboardFold pairs used w = Except.ok w' →
    validPairs used pairs = true := by
  intro pairs
  induction pairs with
  | nil =>
    intro used w _ _ w' _
    rfl
  | cons pr rest ih =>
    intro used w hl hw w' hok
    obtain ⟨a, b⟩ := pr
    have hla := (hl (a, b) (by simp)).1
    have hlb := (hl (a, b) (by simp)).2
    simp only [plugboardFold] at hok
    by_cases h1 : a.toUpper = b.toUpper
    · rw [if_pos h1] at hok
      cases hok
    · rw [if_neg h1] at hok
      by_cases h2 : (used.contains a.toUpper || used.contains b.toUpper) = true
      · rw [if_pos h2] at hok
        cases hok
      · rw [if_neg h2] at hok
        simp only [Bool.or_eq_true, not_or, Bool.not_eq_true] at h2
        obtain ⟨h2a, h2b⟩ := h2
        obtain ⟨ja, hja⟩ := toUpper_alpha_ALPH hla
        obtain ⟨jb, hjb⟩ := toUpper_alpha_ALPH hlb
        rw [hja, hjb] at hok
        have hset1 : pySet w (char_to_idx (ALPH (ja : Nat))) (ALPH (jb : Nat)) =
            some (w.set (ja : Nat) (ALPH (jb : Nat))) := by
          rw [char_to_idx_ALPH ja,
            pySet_nonneg _ _ _ (by positivity) (by rw [Int.toNat_natCast, hw]; exact ja.isLt),
            Int.toNat_natCast]
        rw [hset1] at hok
        dsimp only at hok
        have hset2 : pySet (w.set (ja : Nat) (ALPH (jb : Nat)))
            (char_to_idx (ALPH (jb : Nat))) (ALPH (ja : Nat)) =
            some ((w.set (ja : Nat) (ALPH (jb : Nat))).set (jb : Nat) (ALPH (ja : Nat))) := by
          rw [char_to_idx_ALPH jb,
            pySet_nonneg _ _ _ (by positivity)
              (by rw [Int.toNat_natCast, List.length_set, hw]; exact jb.isLt),
            Int.toNat_natCast]
        rw [hset2] at hok
        dsimp only at hok
        have hrec := ih (ALPH (ja : Nat) :: ALPH (jb : Nat) :: used)
          ((w.set (ja : Nat) (ALPH (jb : Nat))).set (jb : Nat) (ALPH (ja : Nat)))
          (fun pq hpq => hl pq (by simp [hpq])) (by simp [hw]) w' hok
        simp only [validPairs, Bool.and_eq_true]
        rw [hja, hjb]
        refine ⟨⟨⟨⟨⟨hla, hlb⟩, ?_⟩, ?_⟩, ?_⟩, hrec⟩
        · rw [Bool.not_eq_true', beq_eq_false_iff_ne]
          rw [hja, hjb] at h1
          exact h1
        · rw [Bool.not_eq_true']
          rw [hja] at h2a
          exact h2a
        · rw [Bool.not_eq_true']
          rw [hjb] at h2b
          exact h2b

theorem mkRotors_ok_lookup : ∀ (ts : List (String × Char × Char)) (rots : List Rotor),
    mkRotors ts = Except.ok rots → ∀ t ∈ ts, (ROTOR_WIRINGS.lookup t.1).isSome = true := by
  intro ts
  induction ts with
  | nil =>
    intro rots _ t ht
    cases ht
  | cons u rest ih =>
    intro rots h t ht
    obtain ⟨n, p, r⟩ := u
    simp only [mkRotors] at h
    cases hrot : mkRotor n p r with
    | error e =>
      rw [hrot] at h
      cases h
    | ok rot =>
      rw [hrot] at h
      dsimp only at h
      cases hrest : mkRotors rest with
      | error e =>
        rw [hrest] at h
        cases h
      | ok rots2 =>
        rcases List.mem_cons.mp ht with rfl | hmem
        · unfold mkRotor at hrot
          cases hlk : ROTOR_WIRINGS.lookup n with
          | none =>
            rw [hlk] at hrot
            cases hrot
          | some wn => rfl
        · exact ih rots2 hrest t hmem

theorem mkMachine_ok_parts {names : List String} {P rings : List Char}
    {pairs : List (Char × Char)} {refl : String} {m : EnigmaMachine}
    (h : mkMachine names P rings (some pairs) refl = Except.ok m) :
    names.length = 3 ∧
    (∃ rots, mkRotors (zip3 names P rings) = Except.ok rots) ∧
    (∃ w', plugboardFold pairs [] ALPHABET = Except.ok w') ∧
    (REFLECTORS.lookup refl).isSome = true := by
  unfold mkMachine at h
  by_cases hn : names.length ≠ 3
  · rw [if_pos hn] at h
    cases h
  · rw [if_neg hn] at h
    cases hrs : mkRotors (zip3 names P rings) with
    | error e =>
      rw [hrs] at h
      cases h
    | ok rots =>
      rw [hrs] at h
      dsimp only at h
      rw [show (some pairs).getD [] = pairs from rfl] at h
      cases hpb : mkPlugboard pairs with
      | error e =>
        rw [hpb] at h
        cases h
      | ok pb =>
        rw [hpb] at h
        dsimp only at h
        cases hre : mkReflector refl with
        | error e =>
          rw [hre] at h
          cases h
        | ok re =>
          refine ⟨by omega, ⟨rots, rfl⟩, ?_, ?_⟩
          · unfold mkPlugboard at hpb
            cases hf : plugboardFold pairs [] ALPHABET with
            | error e =>
              rw [hf] at hpb
              cases hpb
            | ok w' => exact ⟨w', rfl⟩
          · unfold mkReflector at hre
            cases hlk : REFLECTORS.lookup refl with
            | none =>
              rw [hlk] at hre
              cases hre
            | some wn => rfl

/-- C9: with 3-entry positions and ring lists and letter plugboard pairs,
construction fails exactly when the rotor list does not name 3 rotors, a
rotor or reflector name is not in the catalog, a pair connects a letter to
itself, or a letter is reused across pairs; and after a successful
construction, encryption never errors. -/
theorem construction_error_iff
    (names : List String) (P rings : List Char) (pairs : List (Char × Char)) (refl : String)
    (hP : P.length = 3) (hr : rings.length = 3)
    (hl : ∀ pq ∈ pairs, pq.1.isAlpha = true ∧ pq.2.isAlpha = true) :
    ((∃ e, mkMachine names P rings (some pairs) refl = Except.error e) ↔
      (names.length ≠ 3 ∨ (∃ n ∈ names, ROTOR_WIRINGS.lookup n = none) ∨
       (∃ pq ∈ pairs, pq.1.toUpper = pq.2.toUpper) ∨ ¬ (pairLetters pairs).Nodup ∨
       REFLECTORS.lookup refl = none)) ∧
    (∀ m, mkMachine names P rings (some pairs) refl = Except.ok m →
      ∀ text, ∃ res, m.encrypt text = some res) := by
  have hok_imp : ∀ m, mkMachine names P rings (some pairs) refl = Except.ok m →
      (names.length = 3 ∧ (∀ n ∈ names, (ROTOR_WIRINGS.lookup n).isSome = true) ∧
       validPairs [] pairs = true ∧ (REFLECTORS.lookup refl).isSome = true) := by
    intro m hm
    obtain ⟨hn3, ⟨rots, hrots⟩, ⟨w', hw'⟩, hre⟩ := mkMachine_ok_parts hm
    refine ⟨hn3, ?_, ?_, hre⟩
    · intro n hn
      have hall := mkRotors_ok_lookup _ _ hrots
      obtain ⟨n1, n2, n3, rfl⟩ := List.length_eq_three.mp hn3
      obtain ⟨p1, p2, p3, rfl⟩ := List.length_eq_three.mp hP
      obtain ⟨r1, r2, r3, rfl⟩ := List.length_eq_three.mp hr
      rcases List.mem_cons.mp hn with rfl | hn'
      · exact hall (n, p1, r1) (by exact List.mem_cons_self _ _)
      rcases List.mem_cons.mp hn' with rfl | hn''
      · exact hall (n, p2, r2) (by simp [zip3])
      rcases List.mem_cons.mp hn'' with rfl | hn'''
      · exact hall (n, p3, r3) (by simp [zip3])
      cases hn'''
    · exact plugboardFold_ok_valid pairs [] ALPHABET hl rfl w' hw'
  have hvalid_ok : (names.length = 3 ∧ (∀ n ∈ names, (ROTOR_WIRINGS.lookup n).isSome = true) ∧
      validPairs [] pairs = true ∧ (REFLECTORS.lookup refl).isSome = true) →
      ∃ m, mkMachine names P rings (some pairs) refl = Except.ok m := by
    rintro ⟨hn3, hcat, hvp, hres⟩
    obtain ⟨m, hm, _, _⟩ := mkMachine_valid hn3 hP hr hcat hvp hres
    exact ⟨m, hm⟩
  have hcond_iff : ¬(names.length ≠ 3 ∨ (∃ n ∈ names, ROTOR_WIRINGS.lookup n = none) ∨
       (∃ pq ∈ pairs, pq.1.toUpper = pq.2.toUpper) ∨ ¬ (pairLetters pairs).Nodup ∨
       REFLECTORS.lookup refl = none) ↔
      (names.length = 3 ∧ (∀ n ∈ names, (ROTOR_WIRINGS.lookup n).isSome = true) ∧
       validPairs [] pairs = true ∧ (REFLECTORS.lookup refl).isSome = true) := by
    rw [validPairs_iff pairs [] hl]
    push_neg
    constructor
    · rintro ⟨h1, h2, h3, h4, h5⟩
      refine ⟨h1, ?_, ⟨?_, h4, by simp⟩, ?_⟩
      · intro n hn
        cases hlk : ROTOR_WIRINGS.lookup n with
        | none => exact absurd hlk (h2 n hn)
        | some wn => rfl
      · intro pq hpq
        exact h3 pq hpq
      · cases hlk : REFLECTORS.lookup refl with
        | none => exact absurd hlk h5
        | some wn => rfl
    · rintro ⟨h1, h2, ⟨h3, h4, _⟩, h5⟩
      refine ⟨h1, ?_, h3, h4, ?_⟩
      · intro n hn hc
        have := h2 n hn
        rw [hc] at this
        cases this
      · intro hc
        rw [hc] at h5
        cases h5
  constructor
  · cases hmk : mkMachine names P rings (some pairs) refl with
    | ok m =>
      constructor
      · rintro ⟨e, he⟩
        cases he
      · intro hcond
        exact absurd hcond (hcond_iff.mpr (hok_imp m hmk))
    | error e =>
      constructor
      · intro _
        by_contra hcond
        obtain ⟨m, hm⟩ := hvalid_ok (hcond_iff.mp hcond)
        rw [hmk] at hm
        cases hm
      · exact fun _ => ⟨e, rfl⟩
  · intro m hm text
    obtain ⟨hn3, hcat, hvp, hres⟩ := hok_imp m hm
    obtain ⟨m0, hm0, hminv, _⟩ := mkMachine_valid hn3 hP hr hcat hvp hres
    rw [hm] at hm0
    injection hm0 with hm0
    subst hm0
    obtain ⟨m1, ys, hrun, _⟩ :=
      encryptChars_master (text.map Char.toUpper) m hminv (mapUpper_stable text)
    exact ⟨(m1, ys), hrun⟩

/-- Witness for C9 with a self-connecting pair, via the theorem itself. -/
theorem construction_error_iff_witness :
    (['A', 'A', 'A'] : List Char).length = 3 ∧
    (∀ pq ∈ ([('A', 'A')] : List (Char × Char)), pq.1.isAlpha = true ∧ pq.2.isAlpha = true) ∧
    (((∃ e, mkMachine ["I", "II", "III"] ['A', 'A', 'A'] ['A', 'A', 'A']
        (some [('A', 'A')]) "B" = Except.error e) ↔
      ((["I", "II", "III"] : List String).length ≠ 3 ∨
       (∃ n ∈ (["I", "II", "III"] : List String), ROTOR_WIRINGS.lookup n = none) ∨
       (∃ pq ∈ ([('A', 'A')] : List (Char × Char)), pq.1.toUpper = pq.2.toUpper) ∨
       ¬ (pairLetters [('A', 'A')]).Nodup ∨
       REFLECTORS.lookup "B" = none)) ∧
    (∀ m, mkMachine ["I", "II", "III"] ['A', 'A', 'A'] ['A', 'A', 'A']
        (some [('A', 'A')]) "B" = Except.ok m →
      ∀ text, ∃ res, m.encrypt text = some res)) :=
  ⟨rfl, by decide,
    construction_error_iff ["I", "II", "III"] ['A', 'A', 'A'] ['A', 'A', 'A']
      [('A', 'A')] "B" rfl rfl (by decide)⟩
